import Mathlib

/-!
# `process.c`: the HPDEC image codec and the noise transform

A shallow embedding of `src/process.c`.

* A `FILE *` opened for reading is the list of characters still to be read.
* `fscanf` conversions (`%5s`, `%d`) are functions on that list.  A result
  `none` stands for "the call returned fewer conversions than the format
  asks for" (a matching failure or end of input); the source treats both
  alike.
* C `int` is a 32-bit two's complement integer and `size_t`/`long` are 64
  bits wide (LP64).  `int` arithmetic that leaves the `int` range is modelled
  as wrapping (`wrap_int`), a `%d` conversion of a numeral outside the `long`
  range saturates and the stored `int` is the truncation (`store_int`), which
  is what the GNU C library does.
* `malloc`, `fopen` for writing, `fprintf`, the flush of `fclose` and `rand`
  are oracles passed as parameters: the embedding makes no assumption on when
  they fail or on what `rand` returns.  The output stream is buffered, so the
  text that `fprintf` has accepted is in the file only after a flush that
  succeeds; when a write fails the file holds a prefix of that text.
* A pointer that may be `NULL` is an `Option`.  The pixel buffer of an image
  is the list of the pixels it holds; reading outside it is `Run.undefined`.
-/

namespace Process

/-! ## C integers -/

/-- Largest value of a C `int`. -/
def INT_MAX : Int := 2147483647

/-- Smallest value of a C `int`. -/
def INT_MIN : Int := -2147483648

/-- Largest value of a C `long`. -/
def LONG_MAX : Int := 9223372036854775807

/-- Smallest value of a C `long`. -/
def LONG_MIN : Int := -9223372036854775808

/-- Number of values of `size_t`. -/
def SIZE_RANGE : Nat := 18446744073709551616

/-- Largest size of an object, `PTRDIFF_MAX`. -/
def PTRDIFF_MAX : Nat := 9223372036854775807

/-- The value is representable as a C `int`. -/
def is_int (x : Int) : Prop := INT_MIN ≤ x ∧ x ≤ INT_MAX

instance (x : Int) : Decidable (is_int x) := by unfold is_int; infer_instance

/-- Result of an `int` operation whose mathematical value is `x`: reduced
modulo `2^32` into `[INT_MIN, INT_MAX]`. -/
def wrap_int (x : Int) : Int := (x + 2147483648) % 4294967296 - 2147483648

/-- Saturation of a value into the range of `long`, as `strtol` does. -/
def clamp_long (x : Int) : Int :=
  if x > LONG_MAX then LONG_MAX else if x < LONG_MIN then LONG_MIN else x

/-- The `int` that a `%d` conversion stores for a numeral of value `x`. -/
def store_int (x : Int) : Int := wrap_int (clamp_long x)

/-- Conversion of an `int` to `size_t`. -/
def to_size (x : Int) : Nat := (x % 18446744073709551616).toNat

/-- `sizeof(struct Pixel)`: three `int`s. -/
def SIZEOF_PIXEL : Nat := 12

/-- `sizeof(struct Image)`: two `int`s and a pointer. -/
def SIZEOF_IMAGE : Nat := 16

/-- The `size_t` value of `height * width * sizeof(struct Pixel)`: the product
of the two `int`s is an `int`, converted to `size_t` for the second product. -/
def pixel_bytes (height width : Int) : Nat :=
  (to_size (wrap_int (height * width)) * SIZEOF_PIXEL) % SIZE_RANGE

/-- Does `malloc(n)` return a non-null pointer: never for a request above
`PTRDIFF_MAX`, otherwise as the heap oracle says. -/
def malloc (heap : Nat → Bool) (n : Nat) : Bool :=
  decide (n ≤ PTRDIFF_MAX) && heap n

/-! ## Data model -/

/-- The RGB values of a pixel. -/
structure Pixel where
  red : Int
  green : Int
  blue : Int
deriving DecidableEq, Repr

/-- An image loaded from a file; `pixels = none` is a null buffer pointer. -/
structure Image where
  height : Int
  width : Int
  pixels : Option (List Pixel)
deriving DecidableEq, Repr

/-- Outcome of running a function that reads a pixel buffer. -/
inductive Run (α : Type) where
  | ret (a : α)
  | undefined
deriving DecidableEq, Repr

/-! ## Characters and decimal numerals -/

/-- The C `isspace` in the "C" locale. -/
def isspace (c : Char) : Bool :=
  c = ' ' || c = '\t' || c = '\n' || c = '\x0b' || c = '\x0c' || c = '\r'

/-- The C `isdigit`. -/
def isdigit (c : Char) : Bool := decide (48 ≤ c.toNat) && decide (c.toNat ≤ 57)

/-- Value of a decimal digit character. -/
def digit_val (c : Char) : Nat := c.toNat - 48

/-- Value of a run of decimal digits, most significant first. -/
def digits_val (ds : List Char) : Nat :=
  ds.foldl (fun acc c => 10 * acc + digit_val c) 0

/-- The character of a decimal digit. -/
def digit_char (d : Nat) : Char := Char.ofNat (48 + d)

/-- Decimal digits of `n`, most significant first; `fuel` bounds the number
of digits. -/
def decimal_fuel : Nat → Nat → List Char
  | 0, _ => []
  | fuel + 1, n =>
    if n < 10 then [digit_char n]
    else decimal_fuel fuel (n / 10) ++ [digit_char (n % 10)]

/-- What `printf("%u")` writes for `n`. -/
def decimal (n : Nat) : List Char := decimal_fuel (n + 1) n

/-- What `printf("%d")` writes for `x`. -/
def print_int (x : Int) : List Char :=
  if x < 0 then '-' :: decimal x.natAbs else decimal x.natAbs

/-! ## `fscanf` -/

/-- Skip leading white space. -/
def skip_ws : List Char → List Char
  | [] => []
  | c :: cs => if isspace c then skip_ws cs else c :: cs

/-- Read at most `n` characters up to the next white space: the input item of
`%ns` and the rest of the stream. -/
def take_word : Nat → List Char → List Char × List Char
  | 0, s => ([], s)
  | _ + 1, [] => ([], [])
  | n + 1, c :: cs =>
    if isspace c then ([], c :: cs)
    else ((c :: (take_word n cs).1), (take_word n cs).2)

/-- The conversion `%5s`: white space is skipped, then at most five
characters that are not white space are read.  It fails at end of input. -/
def scan_s5 (s : List Char) : Option (List Char × List Char) :=
  match skip_ws s with
  | [] => none
  | c :: cs => some (take_word 5 (c :: cs))

/-- The conversion `%d`: white space is skipped, then an optional sign and
the longest run of digits are read; it fails when there is no digit. -/
def scan_d (s : List Char) : Option (Int × List Char) :=
  match skip_ws s with
  | [] => none
  | c :: cs =>
    let body := if c = '-' ∨ c = '+' then cs else c :: cs
    let ds := body.takeWhile isdigit
    if ds = [] then none
    else
      let mag : Int := (digits_val ds : Nat)
      some (store_int (if c = '-' then -mag else mag), body.dropWhile isdigit)

/-- The call `fscanf(f, "%d %d", &a, &b)`; `some` when it returns 2. -/
def fscanf_d_d (s : List Char) : Option (Int × Int × List Char) :=
  match scan_d s with
  | none => none
  | some (a, s1) =>
    match scan_d (skip_ws s1) with
    | none => none
    | some (b, s2) => some (a, b, s2)

/-- The call `fscanf(f, "%d %d %d", &r, &g, &b)`; `some` when it returns 3. -/
def fscanf_d_d_d (s : List Char) : Option (Pixel × List Char) :=
  match scan_d s with
  | none => none
  | some (r, s1) =>
    match scan_d (skip_ws s1) with
    | none => none
    | some (g, s2) =>
      match scan_d (skip_ws s2) with
      | none => none
      | some (b, s3) => some (⟨r, g, b⟩, s3)

/-! ## `load_image` -/

/-- Why `load_image` returned `NULL`; the last three print the message of the
same name on `stderr`, the first two print nothing or the file name. -/
inductive LoadError where
  | file_not_opened
  | out_of_memory
  | invalid_file_format
  | invalid_dimensions
  | invalid_pixel_data
deriving DecidableEq, Repr

/-- Result of `load_image`: the new image, or `NULL` and the reason. -/
inductive Loaded where
  | ok (img : Image)
  | error (e : LoadError)
deriving DecidableEq, Repr

/-- A pixel record passes the range check of the read loop. -/
def in_range (p : Pixel) : Bool :=
  !(decide (p.red < 0) || decide (p.red > 255) ||
    decide (p.green < 0) || decide (p.green > 255) ||
    decide (p.blue < 0) || decide (p.blue > 255))

/-- The read loop of `load_image` (lines 83-97): `n` iterations remain; `none`
when a record does not parse or is out of range.  The result is the pixels
stored and the stream after the last record. -/
def read_pixels : Nat → List Char → Option (List Pixel × List Char)
  | 0, s => some ([], s)
  | n + 1, s =>
    match fscanf_d_d_d s with
    | none => none
    | some (p, s1) =>
      if in_range p then
        match read_pixels n s1 with
        | none => none
        | some (ps, s2) => some (p :: ps, s2)
      else none

/-- The function `load_image` (lines 39-101); `file` is the content of the
file named by the argument, `none` when `fopen` fails.  The checks are made in
the order of the source: the `Image` is allocated, the magic is read with
`%5s` and compared with `HPDEC`, the dimensions are read with `%d %d` and
must be positive, the buffer is allocated, the records are read. -/
def load_image (heap : Nat → Bool) (file : Option (List Char)) : Loaded :=
  match file with
  | none => .error .file_not_opened
  | some f =>
    if !malloc heap SIZEOF_IMAGE then .error .out_of_memory
    else
      match scan_s5 f with
      | none => .error .invalid_file_format
      | some (format, f1) =>
        if format ≠ ['H', 'P', 'D', 'E', 'C'] then .error .invalid_file_format
        else
          match fscanf_d_d f1 with
          | none => .error .invalid_dimensions
          | some (height, width, f2) =>
            if height ≤ 0 ∨ width ≤ 0 then .error .invalid_dimensions
            else if !malloc heap (pixel_bytes height width) then .error .out_of_memory
            else
              match read_pixels (wrap_int (height * width)).toNat f2 with
              | none => .error .invalid_pixel_data
              | some (ps, _) => .ok ⟨height, width, some ps⟩

/-! ## `save_image` -/

/-- The destination of `save_image`.  The stream that `fopen(filename, "w")`
returns is buffered: a call of `fprintf` that succeeds has handed its text to
the stream, and that text is in the file for sure only once a flush has
succeeded; the last flush is made by `fclose`.

* `opens`: whether `fopen(filename, "w")` returns a stream;
* `accepts k`: whether the write number `k` on that stream succeeds, the
  writes being the calls of `fprintf` in order and, after the last of them,
  the flush of `fclose`;
* `kept`: once a write has failed, how many characters of the text handed to
  the stream are in the file. -/
structure Sink where
  opens : Bool
  accepts : Nat → Bool
  kept : Nat

/-- The call `fclose(f)` as the write number `k`, after the calls of `fprintf`
have handed `text` to the stream: the text that is in the file.  Nothing
reports whether that flush has succeeded, the code does not look at the value
that `fclose` returns. -/
def fclose (sink : Sink) (k : Nat) (text : List Char) : List Char :=
  if sink.accepts k then text else text.take sink.kept

/-- What a call of `save_image` leaves behind: the returned value, and the
text in the destination file (`none` when it was not opened). -/
structure Saved where
  result : Bool
  file : Option (List Char)
deriving DecidableEq, Repr

/-- Text of `fprintf(f, "HPDEC\n%d %d\n", height, width)`. -/
def header_text (height width : Int) : List Char :=
  ['H', 'P', 'D', 'E', 'C', '\n'] ++ print_int height ++ ' ' :: print_int width ++ ['\n']

/-- Text of `fprintf(f, "%d %d %d\n", red, green, blue)`. -/
def pixel_text (p : Pixel) : List Char :=
  print_int p.red ++ ' ' :: print_int p.green ++ ' ' :: print_int p.blue ++ ['\n']

/-- The write loop of `save_image` and what follows it (lines 123-134): `n`
iterations remain, `i` is the loop index, `out` the text handed to the stream
so far by the header and the `i` records, which are the writes 0 to `i`.  A
call of `fprintf` that fails ends the function with `false`, and the file
holds the first `kept` characters of the text; after the last record `fclose`
is the write `i + 1`, and the function returns `true` whatever `fclose`
returns. -/
def write_pixels (sink : Sink) (ps : List Pixel) : Nat → Nat → List Char → Run Saved
  | 0, i, out => .ret ⟨true, some (fclose sink (i + 1) out)⟩
  | n + 1, i, out =>
    match ps[i]? with
    | none => .undefined
    | some p =>
      if !sink.accepts (i + 1) then
        .ret ⟨false, some ((out ++ pixel_text p).take sink.kept)⟩
      else write_pixels sink ps n (i + 1) (out ++ pixel_text p)

/-- The function `save_image` (lines 104-135): the three null checks, `fopen`,
the header, then the write loop, which runs `height * width` times, the
product being an `int`, then `fclose`, whose result is dropped. -/
def save_image (sink : Sink) (img : Option Image) (filename : Option String) : Run Saved :=
  match img with
  | none => .ret ⟨false, none⟩
  | some g =>
    match g.pixels with
    | none => .ret ⟨false, none⟩
    | some ps =>
      match filename with
      | none => .ret ⟨false, none⟩
      | some _ =>
        if !sink.opens then .ret ⟨false, none⟩
        else if !sink.accepts 0 then
          .ret ⟨false, some ((header_text g.height g.width).take sink.kept)⟩
        else
          write_pixels sink ps (wrap_int (g.height * g.width)).toNat 0
            (header_text g.height g.width)

/-! ## `copy_image` and `apply_NOISE` -/

/-- The function `copy_image` (lines 139-163): `memcpy` reads `pixel_bytes`
bytes of the source buffer, which is undefined when the buffer is shorter. -/
def copy_image (heap : Nat → Bool) (source : Option Image) : Run (Option Image) :=
  match source with
  | none => .ret none
  | some src =>
    match src.pixels with
    | none => .ret none
    | some ps =>
      if !malloc heap SIZEOF_IMAGE then .ret none
      else if !malloc heap (pixel_bytes src.height src.width) then .ret none
      else if pixel_bytes src.height src.width > SIZEOF_PIXEL * ps.length then .undefined
      else
        .ret (some ⟨src.height, src.width,
          some (ps.take (pixel_bytes src.height src.width / SIZEOF_PIXEL))⟩)

/-- The clamping expression `(x < 0) ? 0 : (x > 255) ? 255 : x`. -/
def clamp (x : Int) : Int := if x < 0 then 0 else if x > 255 then 255 else x

/-- The expression `(rand() % (2 * strength + 1)) - strength` for a call of
`rand` that returns `r`; `%` truncates towards zero. -/
def noise (r : Nat) (strength : Int) : Int :=
  wrap_int (Int.tmod (r : Int) (wrap_int (wrap_int (2 * strength) + 1)) - strength)

/-- One iteration of the loop of `apply_NOISE` on the pixel `p`, when the
next three calls of `rand` return `r0`, `r1`, `r2`. -/
def noise_pixel (strength : Int) (r0 r1 r2 : Nat) (p : Pixel) : Pixel :=
  ⟨clamp (wrap_int (p.red + noise r0 strength)),
   clamp (wrap_int (p.green + noise r1 strength)),
   clamp (wrap_int (p.blue + noise r2 strength))⟩

/-- The loop of `apply_NOISE`: `n` iterations remain, `i` is the loop index,
`k` the number of calls of `rand` made so far, `ps` the buffer of `result`. -/
def noise_loop (rand : Nat → Nat) (strength : Int) :
    Nat → Nat → Nat → List Pixel → Run (List Pixel × Nat)
  | 0, _, k, ps => .ret (ps, k)
  | n + 1, i, k, ps =>
    match ps[i]? with
    | none => .undefined
    | some p =>
      noise_loop rand strength n (i + 1) (k + 3)
        (ps.set i (noise_pixel strength (rand k) (rand (k + 1)) (rand (k + 2)) p))

/-- The function `apply_NOISE` (lines 169-195); `rand k` is what the `k`-th
call of `rand` returns and `k0` the number of calls made before.  The result is the returned
pointer and the number of calls of `rand` made so far. -/
def apply_NOISE (heap : Nat → Bool) (rand : Nat → Nat) (k0 : Nat)
    (source : Option Image) (strength : Int) : Run (Option Image × Nat) :=
  match source with
  | none => .ret (none, k0)
  | some src =>
    if strength < 0 then .ret (none, k0)
    else
      match copy_image heap (some src) with
      | .undefined => .undefined
      | .ret none => .ret (none, k0)
      | .ret (some result) =>
        match result.pixels with
        | none => .undefined
        | some ps =>
          match noise_loop rand strength
              (wrap_int (result.height * result.width)).toNat 0 k0 ps with
          | .undefined => .undefined
          | .ret (ps1, k1) => .ret (some ⟨result.height, result.width, some ps1⟩, k1)

/-! ## Vocabulary of the claims

The text form is described by the list of its tokens after the magic, each
with the white space that precedes it, and by what follows the last one. -/

/-- The magic token. -/
def MAGIC : List Char := ['H', 'P', 'D', 'E', 'C']

/-- The stream does not continue a numeral: it is empty or starts with a
character that is not a digit. -/
def starts_clean (s : List Char) : Prop := ∀ c ∈ s.head?, isdigit c = false

instance (s : List Char) : Decidable (starts_clean s) := by
  unfold starts_clean; infer_instance

/-- Text of a sequence of decimal tokens, each written after its separator. -/
def render : List (List Char × Int) → List Char
  | [] => []
  | t :: ts => t.1 ++ (print_int t.2 ++ render ts)

/-- Every separator is a non-empty run of white space. -/
def well_separated (toks : List (List Char × Int)) : Prop :=
  ∀ t ∈ toks, t.1 ≠ [] ∧ ∀ c ∈ t.1, isspace c = true

instance (toks : List (List Char × Int)) : Decidable (well_separated toks) := by
  unfold well_separated; infer_instance

/-- The channel values of a pixel sequence in file order. -/
def channels : List Pixel → List Int
  | [] => []
  | p :: ps => p.red :: p.green :: p.blue :: channels ps

/-- Every channel of the pixel lies in `[0, 255]`. -/
def valid_pixel (p : Pixel) : Prop :=
  0 ≤ p.red ∧ p.red ≤ 255 ∧ 0 ≤ p.green ∧ p.green ≤ 255 ∧ 0 ≤ p.blue ∧ p.blue ≤ 255

instance (p : Pixel) : Decidable (valid_pixel p) := by
  unfold valid_pixel; infer_instance

/-- The data-model invariant of a grid: positive dimensions, a pixel sequence
of exactly `height * width` pixels, every channel in `[0, 255]`. -/
def valid_grid (g : Image) : Prop :=
  0 < g.height ∧ 0 < g.width ∧
    match g.pixels with
    | none => False
    | some ps => (ps.length : Int) = g.height * g.width ∧ ∀ p ∈ ps, valid_pixel p

instance (g : Image) : Decidable (valid_grid g) := by
  unfold valid_grid
  cases g.pixels <;> infer_instance

/-- The pixel count `2^32` of a grid of 65536 by 65536 pixels. -/
def huge_count : Nat := 65536 * 65536

/-- A grid of 65536 by 65536 black pixels. -/
def huge_grid : Image := ⟨65536, 65536, some (List.replicate huge_count ⟨0, 0, 0⟩)⟩

/-- The first white-space-delimited token of a text (empty when there is none). -/
def first_token (s : List Char) : List Char :=
  (s.dropWhile isspace).takeWhile (fun c => !isspace c)

/-- The text after its first white-space-delimited token. -/
def after_first_token (s : List Char) : List Char :=
  (s.dropWhile isspace).dropWhile (fun c => !isspace c)

/-- The token is a decimal integer: an optional sign and at least one digit,
and nothing else. -/
def is_integer_token (t : List Char) : Bool :=
  match t with
  | [] => false
  | c :: cs =>
    if c = '-' ∨ c = '+' then !cs.isEmpty && cs.all isdigit else (c :: cs).all isdigit

/-- The token begins with a decimal integer: an optional sign, then a digit. -/
def begins_with_integer (t : List Char) : Bool :=
  match t with
  | [] => false
  | c :: cs =>
    if c = '-' ∨ c = '+' then
      match cs with
      | [] => false
      | d :: _ => isdigit d
    else isdigit c

/-- No integer can be read next: the next token is missing or does not begin
with a decimal integer. -/
def no_integer_ahead (s : List Char) : Prop := begins_with_integer (first_token s) = false

instance (s : List Char) : Decidable (no_integer_ahead s) := by
  unfold no_integer_ahead; infer_instance

/-- The heap on which every request up to `PTRDIFF_MAX` succeeds. -/
def ample_heap : Nat → Bool := fun _ => true

/-- The destination that opens and accepts every write. -/
def good_sink : Sink := ⟨true, fun _ => true, 0⟩

/-- A destination that opens and takes what `fprintf` hands to the stream, but
where no flush succeeds and nothing reaches the file, such as `/dev/full` for
a text shorter than the buffer of the stream: the writes 0, 1 and 2 succeed,
the next one fails. -/
def full_sink : Sink := ⟨true, fun k => decide (k < 3), 0⟩

/-- Text of the pixel records, one line for each pixel in order. -/
def pixels_text : List Pixel → List Char
  | [] => []
  | p :: ps => pixel_text p ++ pixels_text ps

/-- The channel tokens of the text that `save_image` writes: a new line
before each red value, a blank before each green and blue value. -/
def pixel_tokens : List Pixel → List (List Char × Int)
  | [] => []
  | p :: ps => (['\n'], p.red) :: ([' '], p.green) :: ([' '], p.blue) :: pixel_tokens ps

/-- Number of lines of a text: the number of new-line characters. -/
def line_count (s : List Char) : Nat := s.count '\n'

/-- The integer that a decimal integer token denotes. -/
def token_value (t : List Char) : Int :=
  match t with
  | [] => 0
  | c :: cs =>
    if c = '-' then -((digits_val cs : Nat) : Int)
    else if c = '+' then ((digits_val cs : Nat) : Int)
    else ((digits_val (c :: cs) : Nat) : Int)

/-- The text after its first `k` white-space-delimited tokens. -/
def drop_tokens : Nat → List Char → List Char
  | 0, s => s
  | k + 1, s => drop_tokens k (after_first_token s)

/-- The token number `k` of a text, counted from 0 (empty when there are fewer
tokens). -/
def nth_token (s : List Char) (k : Nat) : List Char := first_token (drop_tokens k s)

/-- The pixels after an application of the noise offsets, the first one with
the draws number `k`, `k + 1` and `k + 2`. -/
def noise_from (rand : Nat → Nat) (strength : Int) : Nat → List Pixel → List Pixel
  | _, [] => []
  | k, p :: ps =>
    noise_pixel strength (rand k) (rand (k + 1)) (rand (k + 2)) p ::
      noise_from rand strength (k + 3) ps

/-! ## Vocabulary of the claims on the transforms -/

/-- The offset of the claims: `(r mod (2 s + 1)) - s`, in the integers. -/
def spec_offset (r : Nat) (s : Int) : Int := (r : Int) % (2 * s + 1) - s

/-- Clamping into `[0, 255]`: values below 0 become 0, values above 255
become 255. -/
def clamp_0_255 (x : Int) : Int := max 0 (min 255 x)

/-- The pixel number `i` of the perturbed grid according to the claims, for
the draws `r` and the source pixel `p`. -/
def spec_pixel (r : Nat → Nat) (s : Int) (i : Nat) (p : Pixel) : Pixel :=
  ⟨clamp_0_255 (p.red + spec_offset (r (3 * i)) s),
   clamp_0_255 (p.green + spec_offset (r (3 * i + 1)) s),
   clamp_0_255 (p.blue + spec_offset (r (3 * i + 2)) s)⟩

/-- The number of (pixel, channel) pairs of a pixel sequence whose channel
value is `v`. -/
def occurrences (v : Int) (ps : List Pixel) : Nat := (channels ps).count v

/-- The report of the claims: for `v` from 0 to 255 in ascending order the
line `Value <v>: <count> pixels`. -/
def report_text (count : Nat → Nat) : List Char :=
  ((List.range 256).map fun v =>
    "Value ".toList ++ decimal v ++ ": ".toList ++ decimal (count v) ++
      " pixels\n".toList).flatten

/-- The 2 by 1 grid with the pixels (0,0,0) and (255,1,2). -/
def sample_grid : Image := ⟨2, 1, some [⟨0, 0, 0⟩, ⟨255, 1, 2⟩]⟩

/-! ## `apply_HIST` -/

/-- The statement `histogram[x]++` on the array of 256 counters: undefined
when the index is outside the array.  The counters are `unsigned long`; a
counter is incremented at most three times for each of the at most `INT_MAX`
iterations of the loop, so it never wraps. -/
def bump (hist : Nat → Nat) (x : Int) : Run (Nat → Nat) :=
  if x < 0 ∨ x > 255 then .undefined
  else .ret (fun v => if v = x.toNat then hist v + 1 else hist v)

/-- The counting loop of `apply_HIST` (lines 210-214): `n` iterations remain,
`i` is the loop index, `hist` the array of counters. -/
def hist_loop (ps : List Pixel) : Nat → Nat → (Nat → Nat) → Run (Nat → Nat)
  | 0, _, hist => .ret hist
  | n + 1, i, hist =>
    match ps[i]? with
    | none => .undefined
    | some p =>
      match bump hist p.red with
      | .undefined => .undefined
      | .ret h1 =>
        match bump h1 p.green with
        | .undefined => .undefined
        | .ret h2 =>
          match bump h2 p.blue with
          | .undefined => .undefined
          | .ret h3 => hist_loop ps n (i + 1) h3

/-- The counters that `apply_HIST` computes for a grid with the buffer `ps`:
the array starts at zero and the loop runs `height * width` times, the product
being an `int`. -/
def histogram (height width : Int) (ps : List Pixel) : Run (Nat → Nat) :=
  hist_loop ps (wrap_int (height * width)).toNat 0 (fun _ => 0)

/-- Text of `printf("Value %d: %lu pixels\n", i, histogram[i])`. -/
def hist_line (i : Nat) (count : Nat) : List Char :=
  ['V', 'a', 'l', 'u', 'e', ' '] ++ print_int (i : Int) ++ [':', ' '] ++ decimal count ++
    [' ', 'p', 'i', 'x', 'e', 'l', 's', '\n']

/-- The printing loop of `apply_HIST` (lines 216-218): `n` iterations remain,
`i` is the loop index.  The result is the text written on `stdout`. -/
def print_hist (hist : Nat → Nat) : Nat → Nat → List Char
  | 0, _ => []
  | n + 1, i => hist_line i (hist i) ++ print_hist hist n (i + 1)

/-- The function `apply_HIST` (lines 202-221): the returned value and the text
written on `stdout`. -/
def apply_HIST (source : Option Image) : Run (Bool × List Char) :=
  match source with
  | none => .ret (false, [])
  | some src =>
    match src.pixels with
    | none => .ret (false, [])
    | some ps =>
      match histogram src.height src.width ps with
      | .undefined => .undefined
      | .ret hist => .ret (true, print_hist hist 256 0)

/-- The function `atoi` of the C library: `(int) strtol(s, NULL, 10)`, which
reads a numeral as `%d` does and returns 0 when there is none. -/
def atoi (s : List Char) : Int :=
  match scan_d s with
  | none => 0
  | some (v, _) => v

/-! ## The heap

The functions above work on the values that the objects hold.  To follow
which objects are allocated, written and released, the functions are embedded
a second time on an explicit heap: a pointer is the index of a block, `malloc`
appends a block, `free` counts the calls made on a block.  The functions that
only read their argument (`save_image`, `apply_HIST`) fetch its value from the
heap and run as above. -/

/-- A block obtained from `malloc`: a `struct Image`, whose field `pixels` is
a pointer, or an array of pixels. -/
inductive Block where
  | image (height width : Int) (pixels : Option Nat)
  | buffer (ps : List Pixel)
deriving DecidableEq, Repr

/-- A block of the heap and the number of calls of `free` made on it. -/
structure Slot where
  block : Block
  released : Nat
deriving DecidableEq, Repr

/-- The call `free(p)` for the block at the index `a`. -/
def free : List Slot → Nat → List Slot
  | [], _ => []
  | s :: mem, 0 => ⟨s.block, s.released + 1⟩ :: mem
  | s :: mem, a + 1 => s :: free mem a

/-- The function `free_image` (lines 28-35): `free(img->pixels)`, then
`free(img)`, and nothing for a null pointer; `free(NULL)` does nothing. -/
def free_image (mem : List Slot) (img : Option Nat) : List Slot :=
  match img with
  | none => mem
  | some a =>
    match mem[a]? with
    | some ⟨.image _ _ (some b), _⟩ => free (free mem b) a
    | _ => free mem a

namespace Store

/-- The value of the image at the index `a`: its fields and the content of
its buffer.  It is `none` when one of the two blocks is not there or has been
released. -/
def fetch (mem : List Slot) (a : Nat) : Option Image :=
  match mem[a]? with
  | some ⟨.image height width px, 0⟩ =>
    match px with
    | none => some ⟨height, width, none⟩
    | some b =>
      match mem[b]? with
      | some ⟨.buffer ps, 0⟩ => some ⟨height, width, some ps⟩
      | _ => none
  | _ => none

/-- The function `load_image` on the heap: the returned pointer and the heap
after the call.  Each failure releases the blocks allocated so far; the
content of a block that is released before the function returns is not
tracked. -/
def load_image (heap : Nat → Bool) (file : Option (List Char)) (mem : List Slot) :
    Option Nat × List Slot :=
  match file with
  | none => (none, mem)
  | some f =>
    if !malloc heap SIZEOF_IMAGE then (none, mem)
    else
      match scan_s5 f with
      | none => (none, free (mem ++ [⟨.image 0 0 none, 0⟩]) mem.length)
      | some (format, f1) =>
        if format ≠ ['H', 'P', 'D', 'E', 'C'] then
          (none, free (mem ++ [⟨.image 0 0 none, 0⟩]) mem.length)
        else
          match fscanf_d_d f1 with
          | none => (none, free (mem ++ [⟨.image 0 0 none, 0⟩]) mem.length)
          | some (height, width, f2) =>
            if height ≤ 0 ∨ width ≤ 0 then
              (none, free (mem ++ [⟨.image height width none, 0⟩]) mem.length)
            else if !malloc heap (pixel_bytes height width) then
              (none, free (mem ++ [⟨.image height width none, 0⟩]) mem.length)
            else
              match read_pixels (wrap_int (height * width)).toNat f2 with
              | none =>
                (none, free (free (mem ++ [⟨.image height width (some (mem.length + 1)), 0⟩,
                  ⟨.buffer [], 0⟩]) (mem.length + 1)) mem.length)
              | some (ps, _) =>
                (some mem.length, mem ++ [⟨.image height width (some (mem.length + 1)), 0⟩,
                  ⟨.buffer ps, 0⟩])

/-- The function `copy_image` on the heap: the returned pointer and the heap
after the call. -/
def copy_image (heap : Nat → Bool) (mem : List Slot) (source : Option Nat) :
    Run (Option Nat × List Slot) :=
  match source with
  | none => .ret (none, mem)
  | some a =>
    match mem[a]? with
    | some ⟨.image height width px, 0⟩ =>
      match px with
      | none => .ret (none, mem)
      | some b =>
        if !malloc heap SIZEOF_IMAGE then .ret (none, mem)
        else if !malloc heap (pixel_bytes height width) then
          .ret (none, free (mem ++ [⟨.image height width none, 0⟩]) mem.length)
        else
          match mem[b]? with
          | some ⟨.buffer ps, 0⟩ =>
            if pixel_bytes height width > SIZEOF_PIXEL * ps.length then .undefined
            else
              .ret (some mem.length,
                mem ++ [⟨.image height width (some (mem.length + 1)), 0⟩,
                  ⟨.buffer (ps.take (pixel_bytes height width / SIZEOF_PIXEL)), 0⟩])
          | _ => .undefined
    | _ => .undefined

/-- The loop of `apply_NOISE` on the heap: each iteration reads and writes
the pixel `i` of the buffer at the index `buf`. -/
def noise_loop (rand : Nat → Nat) (strength : Int) (buf : Nat) :
    Nat → Nat → Nat → List Slot → Run (List Slot × Nat)
  | 0, _, k, mem => .ret (mem, k)
  | n + 1, i, k, mem =>
    match mem[buf]? with
    | some ⟨.buffer ps, 0⟩ =>
      match ps[i]? with
      | none => .undefined
      | some p =>
        noise_loop rand strength buf n (i + 1) (k + 3)
          (mem.set buf ⟨.buffer (ps.set i
            (noise_pixel strength (rand k) (rand (k + 1)) (rand (k + 2)) p)), 0⟩)
    | _ => .undefined

/-- The function `apply_NOISE` on the heap: the returned pointer, the heap
after the call and the number of calls of `rand` made so far. -/
def apply_NOISE (heap : Nat → Bool) (rand : Nat → Nat) (k0 : Nat) (mem : List Slot)
    (source : Option Nat) (strength : Int) : Run (Option Nat × List Slot × Nat) :=
  match source with
  | none => .ret (none, mem, k0)
  | some a =>
    if strength < 0 then .ret (none, mem, k0)
    else
      match copy_image heap mem (some a) with
      | .undefined => .undefined
      | .ret (none, mem1) => .ret (none, mem1, k0)
      | .ret (some result, mem1) =>
        match mem1[result]? with
        | some ⟨.image height width (some buf), 0⟩ =>
          match noise_loop rand strength buf (wrap_int (height * width)).toNat 0 k0 mem1 with
          | .undefined => .undefined
          | .ret (mem2, k1) => .ret (some result, mem2, k1)
        | _ => .undefined

/-- The function `apply_HIST` on the heap: it only reads its argument. -/
def apply_HIST (mem : List Slot) (source : Option Nat) : Run (Bool × List Char) :=
  match source with
  | none => .ret (false, [])
  | some a =>
    match fetch mem a with
    | none => .undefined
    | some g => Process.apply_HIST (some g)

/-- The function `save_image` on the heap: it only reads its argument. -/
def save_image (sink : Sink) (mem : List Slot) (img : Option Nat)
    (filename : Option String) : Run Saved :=
  match img with
  | none => .ret ⟨false, none⟩
  | some a =>
    match fetch mem a with
    | none => .undefined
    | some g => Process.save_image sink (some g) filename

end Store

/-! ## `main` -/

/-- What a run of `main` leaves behind: the exit status, the heap, the text
written on `stdout` and the text in the destination file. -/
structure Exit where
  status : Int
  heap : List Slot
  out : List Char
  file : Option (List Char)
deriving DecidableEq, Repr

/-- The body of `main` after the command line has been read (lines 240-272):
decode, perturb, histogram, encode, with the calls of `free_image` of each
path. -/
def pipeline (heap heap_n : Nat → Bool) (rand : Nat → Nat)
    (files : String → Option (List Char)) (sink : Sink) (input output : String)
    (noise_strength : Int) : Run Exit :=
  match Store.load_image heap (files input) [] with
  | (none, mem) => .ret ⟨1, mem, [], none⟩
  | (some in_img, mem) =>
    match Store.apply_NOISE heap_n rand 0 mem (some in_img) noise_strength with
    | .undefined => .undefined
    | .ret (none, mem1, _) => .ret ⟨1, free_image mem1 (some in_img), [], none⟩
    | .ret (some out_img, mem1, _) =>
      match Store.apply_HIST mem1 (some out_img) with
      | .undefined => .undefined
      | .ret (false, out) =>
        .ret ⟨1, free_image (free_image mem1 (some in_img)) (some out_img), out, none⟩
      | .ret (true, out) =>
        match Store.save_image sink mem1 (some out_img) (some output) with
        | .undefined => .undefined
        | .ret ⟨false, f⟩ =>
          .ret ⟨1, free_image (free_image mem1 (some in_img)) (some out_img), out, f⟩
        | .ret ⟨true, f⟩ =>
          .ret ⟨0, free_image (free_image mem1 (some in_img)) (some out_img), out, f⟩

/-- The function `main` (lines 223-273): `argv` holds `argc` strings, `files`
gives the content of the files that can be opened for reading, `rand` the
values that `rand` returns after `srand(time(NULL))`, `heap` and `heap_n` are
the oracles of the allocations made by `load_image` and by `apply_NOISE`. -/
def main (heap heap_n : Nat → Bool) (rand : Nat → Nat)
    (files : String → Option (List Char)) (sink : Sink) (argv : List String) : Run Exit :=
  match argv with
  | [_, input, output] => pipeline heap heap_n rand files sink input output 5
  | [_, input, output, strength] =>
    pipeline heap heap_n rand files sink input output (atoi strength.toList)
  | _ => .ret ⟨1, [], [], none⟩

/-- The grid `sample_grid` on the heap: its struct at the index 0, its buffer
at the index 1. -/
def sample_store : List Slot :=
  [⟨.image 2 1 (some 1), 0⟩, ⟨.buffer [⟨0, 0, 0⟩, ⟨255, 1, 2⟩], 0⟩]

/-- The grid `huge_grid` on the heap: its struct at the index 0, its buffer at
the index 1. -/
def huge_store : List Slot :=
  [⟨.image 65536 65536 (some 1), 0⟩, ⟨.buffer (List.replicate huge_count ⟨0, 0, 0⟩), 0⟩]

/-! ## Characters -/

theorem isspace_not_digit {c : Char} (h : isspace c = true) : isdigit c = false := by
  simp only [isspace, Bool.or_eq_true, decide_eq_true_eq] at h
  rcases h with ((((h | h) | h) | h) | h) | h <;> subst h <;> decide

theorem isdigit_not_space {c : Char} (h : isdigit c = true) : isspace c = false := by
  cases hs : isspace c with
  | false => rfl
  | true => rw [isspace_not_digit hs] at h; cases h

theorem isdigit_not_sign {c : Char} (h : isdigit c = true) : ¬ (c = '-' ∨ c = '+') := by
  rintro (rfl | rfl) <;> revert h <;> decide

theorem digit_char_spec {d : Nat} (hd : d < 10) :
    isdigit (digit_char d) = true ∧ digit_val (digit_char d) = d := by
  interval_cases d <;> decide

/-! ## Decimal numerals -/

theorem digits_val_snoc (ds : List Char) (c : Char) :
    digits_val (ds ++ [c]) = 10 * digits_val ds + digit_val c := by
  simp [digits_val, List.foldl_append]

theorem decimal_fuel_spec : ∀ (fuel n : Nat), n < fuel →
    decimal_fuel fuel n ≠ [] ∧ (∀ c ∈ decimal_fuel fuel n, isdigit c = true) ∧
      digits_val (decimal_fuel fuel n) = n := by
  intro fuel
  induction fuel with
  | zero => intro n h; omega
  | succ fuel ih =>
    intro n hn
    unfold decimal_fuel
    by_cases h10 : n < 10
    · simp only [h10, if_true]
      refine ⟨by simp, ?_, ?_⟩
      · intro c hc
        simp only [List.mem_singleton] at hc
        subst hc
        exact (digit_char_spec h10).1
      · simp [digits_val, (digit_char_spec h10).2]
    · simp only [h10, if_false]
      obtain ⟨_, hdig, hval⟩ := ih (n / 10) (by omega)
      refine ⟨by simp, ?_, ?_⟩
      · intro c hc
        rcases List.mem_append.1 hc with hc | hc
        · exact hdig c hc
        · simp only [List.mem_singleton] at hc
          subst hc
          exact (digit_char_spec (Nat.mod_lt n (by omega))).1
      · rw [digits_val_snoc, hval, (digit_char_spec (Nat.mod_lt n (by omega))).2]
        omega

theorem decimal_ne_nil (n : Nat) : decimal n ≠ [] :=
  (decimal_fuel_spec (n + 1) n (by omega)).1

theorem decimal_isdigit (n : Nat) : ∀ c ∈ decimal n, isdigit c = true :=
  (decimal_fuel_spec (n + 1) n (by omega)).2.1

theorem digits_val_decimal (n : Nat) : digits_val (decimal n) = n :=
  (decimal_fuel_spec (n + 1) n (by omega)).2.2

theorem takeWhile_digits (ds rest : List Char) (hd : ∀ c ∈ ds, isdigit c = true)
    (hr : starts_clean rest) :
    (ds ++ rest).takeWhile isdigit = ds ∧ (ds ++ rest).dropWhile isdigit = rest := by
  induction ds with
  | nil =>
    cases rest with
    | nil => simp
    | cons c cs =>
      have : isdigit c = false := hr c (by simp)
      simp [List.takeWhile, List.dropWhile, this]
  | cons d ds ih =>
    have hd1 : isdigit d = true := hd d (by simp)
    have := ih (fun c hc => hd c (by simp [hc]))
    simp [List.takeWhile, List.dropWhile, hd1, this.1, this.2]

/-! ## Scanning -/

theorem skip_ws_append_ws (ws s : List Char) (h : ∀ c ∈ ws, isspace c = true) :
    skip_ws (ws ++ s) = skip_ws s := by
  induction ws with
  | nil => rfl
  | cons c cs ih =>
    have hc : isspace c = true := h c (by simp)
    simp only [List.cons_append, skip_ws, hc, if_true]
    exact ih (fun c hc => h c (by simp [hc]))

theorem skip_ws_cons_of_not_space {c : Char} (cs : List Char) (h : isspace c = false) :
    skip_ws (c :: cs) = c :: cs := by
  simp [skip_ws, h]

theorem skip_ws_head (s : List Char) : ∀ c ∈ (skip_ws s).head?, isspace c = false := by
  induction s with
  | nil => simp [skip_ws]
  | cons d ds ih =>
    by_cases hd : isspace d = true
    · simpa [skip_ws, hd] using ih
    · have hd1 : isspace d = false := by simpa using hd
      simp [skip_ws, hd1]

theorem skip_ws_idem (s : List Char) : skip_ws (skip_ws s) = skip_ws s := by
  induction s with
  | nil => rfl
  | cons d ds ih =>
    by_cases hd : isspace d = true
    · simpa [skip_ws, hd] using ih
    · have hd1 : isspace d = false := by simpa using hd
      simp [skip_ws, hd1]

theorem scan_d_skip_ws (s : List Char) : scan_d (skip_ws s) = scan_d s := by
  simp only [scan_d, skip_ws_idem]

theorem scan_d_append_ws (ws s : List Char) (h : ∀ c ∈ ws, isspace c = true) :
    scan_d (ws ++ s) = scan_d s := by
  simp only [scan_d, skip_ws_append_ws ws s h]

theorem store_int_of_is_int {x : Int} (h : is_int x) : store_int x = x := by
  unfold is_int INT_MIN INT_MAX at h
  unfold store_int clamp_long wrap_int LONG_MAX LONG_MIN
  have h1 : ¬ x > 9223372036854775807 := by omega
  have h2 : ¬ x < -9223372036854775808 := by omega
  simp only [h1, h2, if_false]
  omega

theorem wrap_int_of_is_int {x : Int} (h : is_int x) : wrap_int x = x := by
  unfold is_int INT_MIN INT_MAX at h
  unfold wrap_int
  omega

/-- Reading back a printed integer: after optional white space, the numeral
of `v` followed by a stream that does not continue it. -/
theorem scan_d_print_int (ws rest : List Char) (v : Int)
    (hws : ∀ c ∈ ws, isspace c = true) (hr : starts_clean rest) :
    scan_d (ws ++ (print_int v ++ rest)) = some (store_int v, rest) := by
  rw [scan_d_append_ws ws _ hws]
  have hne := decimal_ne_nil v.natAbs
  have hdig := decimal_isdigit v.natAbs
  have hval := digits_val_decimal v.natAbs
  have htw := takeWhile_digits (decimal v.natAbs) rest hdig hr
  by_cases hv : v < 0
  · have hsp : isspace '-' = false := by decide
    have habs : -((v.natAbs : Nat) : Int) = v := by omega
    simp only [print_int, hv, if_true, List.cons_append, scan_d,
      skip_ws_cons_of_not_space _ hsp, true_or, htw.1, htw.2, hne, if_false, hval, habs]
  · have habs : ((v.natAbs : Nat) : Int) = v := by omega
    cases hdec : decimal v.natAbs with
    | nil => exact absurd hdec hne
    | cons d ds =>
      have hd : isdigit d = true := hdig d (by simp [hdec])
      have hsp : isspace d = false := isdigit_not_space hd
      have hsg : ¬ (d = '-' ∨ d = '+') := isdigit_not_sign hd
      have hm : ¬ d = '-' := fun h => hsg (Or.inl h)
      have hp : ¬ d = '+' := fun h => hsg (Or.inr h)
      rw [hdec] at htw hval
      simp only [List.cons_append] at htw
      simp only [print_int, hv, if_false, hdec, List.cons_append, scan_d,
        skip_ws_cons_of_not_space _ hsp, htw.1, htw.2, hm, hp, or_self, hval, habs,
        reduceCtorEq]

/-! ## Reading rendered tokens -/

theorem well_separated_cons (t : List Char × Int) (ts : List (List Char × Int)) :
    well_separated (t :: ts) ↔
      (t.1 ≠ [] ∧ ∀ c ∈ t.1, isspace c = true) ∧ well_separated ts := by
  simp [well_separated]

theorem well_separated_append (a b : List (List Char × Int)) :
    well_separated (a ++ b) ↔ well_separated a ∧ well_separated b := by
  simp only [well_separated, List.mem_append]
  constructor
  · intro h
    exact ⟨fun t ht => h t (Or.inl ht), fun t ht => h t (Or.inr ht)⟩
  · rintro ⟨ha, hb⟩ t (ht | ht)
    · exact ha t ht
    · exact hb t ht

theorem render_append (a b : List (List Char × Int)) :
    render (a ++ b) = render a ++ render b := by
  induction a with
  | nil => rfl
  | cons t ts ih => simp [render, ih]

theorem starts_clean_of_space {c : Char} (cs : List Char) (h : isspace c = true) :
    starts_clean (c :: cs) := by
  intro d hd
  simp only [List.head?_cons, Option.mem_def, Option.some.injEq] at hd
  subst hd
  exact isspace_not_digit h

theorem render_starts_clean (toks : List (List Char × Int)) (tail : List Char)
    (hs : well_separated toks) (ht : starts_clean tail) :
    starts_clean (render toks ++ tail) := by
  cases toks with
  | nil => simpa [render] using ht
  | cons t ts =>
    obtain ⟨⟨hne, hws⟩, _⟩ := (well_separated_cons t ts).1 hs
    cases hsep : t.1 with
    | nil => exact absurd hsep hne
    | cons c cs =>
      have hc : isspace c = true := hws c (by simp [hsep])
      simp only [render, hsep, List.cons_append]
      exact starts_clean_of_space _ hc

theorem scan_d_render (t : List Char × Int) (ts : List (List Char × Int))
    (tail : List Char) (hs : well_separated (t :: ts)) (ht : starts_clean tail) :
    scan_d (render (t :: ts) ++ tail) = some (store_int t.2, render ts ++ tail) := by
  obtain ⟨⟨_, hws⟩, hts⟩ := (well_separated_cons t ts).1 hs
  have hclean := render_starts_clean ts tail hts ht
  have := scan_d_print_int t.1 (render ts ++ tail) t.2 hws hclean
  simpa [render, List.append_assoc] using this

theorem fscanf_d_d_render (t1 t2 : List Char × Int) (ts : List (List Char × Int))
    (tail : List Char) (hs : well_separated (t1 :: t2 :: ts)) (ht : starts_clean tail) :
    fscanf_d_d (render (t1 :: t2 :: ts) ++ tail) =
      some (store_int t1.2, store_int t2.2, render ts ++ tail) := by
  have hs2 := ((well_separated_cons t1 _).1 hs).2
  simp only [fscanf_d_d, scan_d_render t1 (t2 :: ts) tail hs ht, scan_d_skip_ws,
    scan_d_render t2 ts tail hs2 ht]

theorem fscanf_d_d_d_render (t1 t2 t3 : List Char × Int) (ts : List (List Char × Int))
    (tail : List Char) (hs : well_separated (t1 :: t2 :: t3 :: ts))
    (ht : starts_clean tail) :
    fscanf_d_d_d (render (t1 :: t2 :: t3 :: ts) ++ tail) =
      some (⟨store_int t1.2, store_int t2.2, store_int t3.2⟩, render ts ++ tail) := by
  have hs2 := ((well_separated_cons t1 _).1 hs).2
  have hs3 := ((well_separated_cons t2 _).1 hs2).2
  simp only [fscanf_d_d_d, scan_d_render t1 (t2 :: t3 :: ts) tail hs ht, scan_d_skip_ws,
    scan_d_render t2 (t3 :: ts) tail hs2 ht, scan_d_render t3 ts tail hs3 ht]

theorem is_int_of_channel {x : Int} (h0 : 0 ≤ x) (h1 : x ≤ 255) : is_int x := by
  unfold is_int INT_MIN INT_MAX
  omega

theorem in_range_of_valid {p : Pixel} (h : valid_pixel p) : in_range p = true := by
  obtain ⟨h1, h2, h3, h4, h5, h6⟩ := h
  simp only [in_range, Bool.not_eq_true', Bool.or_eq_false_iff, decide_eq_false_iff_not]
  omega

theorem valid_of_in_range {p : Pixel} (h : in_range p = true) : valid_pixel p := by
  simp only [in_range, Bool.not_eq_true', Bool.or_eq_false_iff, decide_eq_false_iff_not] at h
  unfold valid_pixel
  omega

/-- Tokens whose values are the channels of a non-empty pixel sequence start
with the three tokens of the first pixel. -/
theorem tokens_of_channels_cons {toks : List (List Char × Int)} {p : Pixel}
    {ps : List Pixel} (h : toks.map Prod.snd = channels (p :: ps)) :
    ∃ t1 t2 t3 rest, toks = t1 :: t2 :: t3 :: rest ∧ t1.2 = p.red ∧ t2.2 = p.green ∧
      t3.2 = p.blue ∧ rest.map Prod.snd = channels ps := by
  match toks, h with
  | [], h => simp [channels] at h
  | [_], h => simp [channels] at h
  | [_, _], h => simp [channels] at h
  | t1 :: t2 :: t3 :: rest, h =>
    simp only [channels, List.map_cons, List.cons.injEq] at h
    exact ⟨t1, t2, t3, rest, rfl, h.1, h.2.1, h.2.2.1, h.2.2.2⟩

/-- The read loop on a well-formed text: the pixels are read in order and the
stream is left right after the last channel token. -/
theorem read_pixels_render : ∀ (ps : List Pixel) (toks more : List (List Char × Int))
    (tail : List Char), toks.map Prod.snd = channels ps →
    well_separated (toks ++ more) → (∀ p ∈ ps, valid_pixel p) → starts_clean tail →
    read_pixels ps.length (render (toks ++ more) ++ tail) = some (ps, render more ++ tail) := by
  intro ps
  induction ps with
  | nil =>
    intro toks more tail h _ _ _
    cases toks with
    | nil => rfl
    | cons t ts => simp [channels] at h
  | cons p ps ih =>
    intro toks more tail h hs hv ht
    obtain ⟨t1, t2, t3, rest, rfl, h1, h2, h3, hrest⟩ := tokens_of_channels_cons h
    have hp : valid_pixel p := hv p (by simp)
    have hs' : well_separated (rest ++ more) := by
      have a := ((well_separated_cons t1 _).1 hs).2
      have b := ((well_separated_cons t2 _).1 a).2
      exact ((well_separated_cons t3 _).1 b).2
    have hrec := ih rest more tail hrest hs' (fun q hq => hv q (by simp [hq])) ht
    have hscan := fscanf_d_d_d_render t1 t2 t3 (rest ++ more) tail hs ht
    rw [h1, h2, h3, store_int_of_is_int (is_int_of_channel hp.1 hp.2.1),
      store_int_of_is_int (is_int_of_channel hp.2.2.1 hp.2.2.2.1),
      store_int_of_is_int (is_int_of_channel hp.2.2.2.2.1 hp.2.2.2.2.2)] at hscan
    simp only [List.length_cons, read_pixels, List.cons_append, hscan,
      in_range_of_valid hp, if_true, hrec]

/-! ## `load_image` on a well-formed text -/

theorem take_word_magic (rest : List Char) :
    take_word 5 (MAGIC ++ rest) = (MAGIC, rest) := by
  have h : ∀ c ∈ MAGIC, isspace c = false := by decide
  simp only [MAGIC] at h ⊢
  simp [take_word, h]

theorem scan_s5_magic (lead rest : List Char) (hl : ∀ c ∈ lead, isspace c = true) :
    scan_s5 (lead ++ (MAGIC ++ rest)) = some (MAGIC, rest) := by
  have h1 : skip_ws (lead ++ (MAGIC ++ rest)) = MAGIC ++ rest := by
    rw [skip_ws_append_ws lead _ hl]
    exact skip_ws_cons_of_not_space _ (by decide)
  unfold scan_s5
  rw [h1]
  show some (take_word 5 (MAGIC ++ rest)) = _
  rw [take_word_magic]

theorem wrap_int_product {h w : Int} (h0 : 0 < h) (w0 : 0 < w) (hfit : h * w ≤ INT_MAX) :
    wrap_int (h * w) = h * w := by
  apply wrap_int_of_is_int
  have : 0 < h * w := Int.mul_pos h0 w0
  unfold is_int INT_MIN
  omega

theorem is_int_of_product {h w : Int} (h0 : 0 < h) (w0 : 0 < w) (hfit : h * w ≤ INT_MAX) :
    is_int h ∧ is_int w := by
  have h1 : h ≤ h * w := by nlinarith
  have h2 : w ≤ h * w := by nlinarith
  unfold is_int INT_MIN INT_MAX at *
  omega

/-- The decoder on a text that starts with the magic and two dimension
tokens: the outcome is decided by the read loop on the rest of the text. -/
theorem load_image_header (heap : Nat → Bool) (lead tail : List Char)
    (th tw : List Char × Int) (rest : List (List Char × Int))
    (hm1 : malloc heap SIZEOF_IMAGE = true)
    (hm2 : malloc heap (pixel_bytes th.2 tw.2) = true)
    (hl : ∀ c ∈ lead, isspace c = true)
    (hs : well_separated (th :: tw :: rest)) (ht : starts_clean tail)
    (ih : is_int th.2) (iw : is_int tw.2) (h0 : 0 < th.2) (w0 : 0 < tw.2) :
    load_image heap (some (lead ++ (MAGIC ++ (render (th :: tw :: rest) ++ tail)))) =
      match read_pixels (wrap_int (th.2 * tw.2)).toNat (render rest ++ tail) with
      | none => .error .invalid_pixel_data
      | some (ps, _) => .ok ⟨th.2, tw.2, some ps⟩ := by
  have hdims := fscanf_d_d_render th tw rest tail hs ht
  rw [store_int_of_is_int ih, store_int_of_is_int iw] at hdims
  have hh : ¬ (th.2 ≤ 0 ∨ tw.2 ≤ 0) := by omega
  have hmagic : ¬ (MAGIC ≠ ['H', 'P', 'D', 'E', 'C']) := by simp [MAGIC]
  simp only [load_image, hm1, Bool.not_true, Bool.false_eq_true, if_false,
    scan_s5_magic lead _ hl, hmagic, hdims, hh, hm2]

/-- The decoder on a text made of the magic, two dimension tokens and the
channel tokens of `ps`, possibly followed by more tokens. -/
theorem load_image_render (heap : Nat → Bool) (lead tail : List Char)
    (th tw : List Char × Int) (toks more : List (List Char × Int)) (ps : List Pixel)
    (hm1 : malloc heap SIZEOF_IMAGE = true)
    (hm2 : malloc heap (pixel_bytes th.2 tw.2) = true)
    (hl : ∀ c ∈ lead, isspace c = true)
    (hs : well_separated (th :: tw :: (toks ++ more)))
    (htoks : toks.map Prod.snd = channels ps)
    (h0 : 0 < th.2) (w0 : 0 < tw.2) (hfit : th.2 * tw.2 ≤ INT_MAX)
    (hlen : (ps.length : Int) = th.2 * tw.2) (hv : ∀ p ∈ ps, valid_pixel p)
    (ht : starts_clean tail) :
    load_image heap (some (lead ++ (MAGIC ++ (render (th :: tw :: (toks ++ more)) ++ tail)))) =
      .ok ⟨th.2, tw.2, some ps⟩ := by
  obtain ⟨ih, iw⟩ := is_int_of_product h0 w0 hfit
  have hs2 : well_separated (toks ++ more) :=
    ((well_separated_cons tw _).1 ((well_separated_cons th _).1 hs).2).2
  have hcount : (wrap_int (th.2 * tw.2)).toNat = ps.length := by
    rw [wrap_int_product h0 w0 hfit, ← hlen]
    simp
  rw [load_image_header heap lead tail th tw _ hm1 hm2 hl hs ht ih iw h0 w0, hcount,
    read_pixels_render ps toks more tail htoks hs2 hv ht]

/-! ## `save_image` -/

theorem write_pixels_success (sink : Sink) (ps : List Pixel) :
    ∀ (n i : Nat) (out : List Char) (f : Option (List Char)), i ≤ ps.length →
      write_pixels sink ps n i out = .ret ⟨true, f⟩ →
      i + n ≤ ps.length ∧
        f = some (fclose sink (i + n + 1) (out ++ pixels_text ((ps.drop i).take n))) := by
  intro n
  induction n with
  | zero =>
    intro i out f hi h
    simp only [write_pixels, Run.ret.injEq, Saved.mk.injEq, true_and] at h
    simp [pixels_text, ← h, hi]
  | succ n ih =>
    intro i out f _ h
    unfold write_pixels at h
    cases hget : ps[i]? with
    | none => simp [hget] at h
    | some p =>
      simp only [hget] at h
      cases hacc : sink.accepts (i + 1) with
      | false => simp [hacc] at h
      | true =>
        simp only [hacc, Bool.not_true, Bool.false_eq_true, if_false] at h
        have hi : i < ps.length := by
          rcases List.getElem?_eq_some_iff.1 hget with ⟨hi, _⟩
          exact hi
        obtain ⟨hlen, hf⟩ := ih (i + 1) (out ++ pixel_text p) f (by omega) h
        have hp : ps[i] = p := by
          rcases List.getElem?_eq_some_iff.1 hget with ⟨_, hp⟩
          exact hp
        refine ⟨by omega, ?_⟩
        have hk : i + 1 + n + 1 = i + (n + 1) + 1 := by omega
        rw [hf, hk, List.drop_eq_getElem_cons hi, hp]
        simp [pixels_text, List.append_assoc]

theorem fclose_good (sink : Sink) (hacc : ∀ k, sink.accepts k = true) (k : Nat)
    (text : List Char) : fclose sink k text = text := by
  simp only [fclose, hacc, if_true]

theorem write_pixels_good (sink : Sink) (ps : List Pixel) (hacc : ∀ k, sink.accepts k = true) :
    ∀ (n i : Nat) (out : List Char), i + n ≤ ps.length →
      write_pixels sink ps n i out =
        .ret ⟨true, some (out ++ pixels_text ((ps.drop i).take n))⟩ := by
  intro n
  induction n with
  | zero => intro i out _; simp [write_pixels, pixels_text, fclose_good sink hacc]
  | succ n ih =>
    intro i out h
    have hi : i < ps.length := by omega
    have hget : ps[i]? = some ps[i] := List.getElem?_eq_getElem hi
    unfold write_pixels
    simp only [hget, hacc, Bool.not_true, Bool.false_eq_true, if_false]
    rw [ih (i + 1) _ (by omega), List.drop_eq_getElem_cons hi]
    simp [pixels_text, List.append_assoc]

/-- A call of `save_image` that returns `true` has handed to the stream the
header and one line for each of the pixels the loop has visited; the file
holds that text when the flush of `fclose` has succeeded, and its first `kept`
characters otherwise. -/
theorem save_image_success (sink : Sink) (g : Image) (ps : List Pixel)
    (name : Option String) (f : Option (List Char)) (hps : g.pixels = some ps)
    (h : save_image sink (some g) name = .ret ⟨true, f⟩) :
    (wrap_int (g.height * g.width)).toNat ≤ ps.length ∧
      f = some (fclose sink ((wrap_int (g.height * g.width)).toNat + 1)
        (header_text g.height g.width ++
          pixels_text (ps.take (wrap_int (g.height * g.width)).toNat))) := by
  unfold save_image at h
  simp only [hps] at h
  cases name with
  | none => simp at h
  | some nm =>
    simp only at h
    cases ho : sink.opens with
    | false => simp [ho] at h
    | true =>
      cases ha : sink.accepts 0 with
      | false => simp [ho, ha] at h
      | true =>
        simp only [ho, ha, Bool.not_true, Bool.false_eq_true, if_false] at h
        have := write_pixels_success sink ps _ 0 _ f (by omega) h
        simpa using this

theorem save_image_good (sink : Sink) (g : Image) (ps : List Pixel) (name : String)
    (hps : g.pixels = some ps) (ho : sink.opens = true) (hacc : ∀ k, sink.accepts k = true)
    (hlen : (wrap_int (g.height * g.width)).toNat ≤ ps.length) :
    save_image sink (some g) (some name) =
      .ret ⟨true, some (header_text g.height g.width ++
        pixels_text (ps.take (wrap_int (g.height * g.width)).toNat))⟩ := by
  unfold save_image
  simp only [hps, ho, hacc, Bool.not_true, Bool.false_eq_true, if_false]
  rw [write_pixels_good sink ps hacc _ 0 _ (by omega)]
  simp

theorem pixel_tokens_channels (ps : List Pixel) :
    (pixel_tokens ps).map Prod.snd = channels ps := by
  induction ps with
  | nil => rfl
  | cons p ps ih => simp [pixel_tokens, channels, ih]

theorem sep_newline (x : Int) :
    ((['\n'], x) : List Char × Int).1 ≠ [] ∧
      ∀ c ∈ ((['\n'], x) : List Char × Int).1, isspace c = true := by
  refine ⟨by simp, ?_⟩
  intro c hc
  simp only [List.mem_singleton] at hc
  subst hc
  decide

theorem sep_blank (x : Int) :
    (([' '], x) : List Char × Int).1 ≠ [] ∧
      ∀ c ∈ (([' '], x) : List Char × Int).1, isspace c = true := by
  refine ⟨by simp, ?_⟩
  intro c hc
  simp only [List.mem_singleton] at hc
  subst hc
  decide

theorem pixel_tokens_separated (ps : List Pixel) : well_separated (pixel_tokens ps) := by
  induction ps with
  | nil => simp [well_separated, pixel_tokens]
  | cons p ps ih =>
    rw [pixel_tokens, well_separated_cons, well_separated_cons, well_separated_cons]
    exact ⟨sep_newline p.red, sep_blank p.green, sep_blank p.blue, ih⟩

theorem pixels_text_render (ps : List Pixel) :
    '\n' :: pixels_text ps = render (pixel_tokens ps) ++ ['\n'] := by
  induction ps with
  | nil => rfl
  | cons p ps ih =>
    simp only [pixels_text, pixel_tokens, render, pixel_text, List.append_assoc,
      List.cons_append, List.nil_append, List.singleton_append, ih]

theorem saved_text_render (h w : Int) (ps : List Pixel) :
    header_text h w ++ pixels_text ps =
      MAGIC ++ (render ((['\n'], h) :: ([' '], w) :: (pixel_tokens ps ++ [])) ++ ['\n']) := by
  have := pixels_text_render ps
  simp only [header_text, MAGIC, render, List.append_assoc, List.cons_append,
    List.nil_append, List.singleton_append, List.append_nil, this]

/-! ## Line counts -/

theorem count_newline_digits (ds : List Char) (h : ∀ c ∈ ds, isdigit c = true) :
    ds.count '\n' = 0 := by
  rw [List.count_eq_zero]
  intro hmem
  have := h _ hmem
  revert this
  decide

theorem line_count_print_int (x : Int) : line_count (print_int x) = 0 := by
  have h := count_newline_digits (decimal x.natAbs) (decimal_isdigit _)
  unfold line_count print_int
  by_cases hx : x < 0
  · simp only [hx, if_true]
    rw [List.count_cons, h]
    decide
  · simp only [hx, if_false, h]

theorem line_count_append (a b : List Char) :
    line_count (a ++ b) = line_count a + line_count b := by
  simp [line_count, List.count_append]

theorem line_count_cons (c : Char) (s : List Char) :
    line_count (c :: s) = line_count s + (if c = '\n' then 1 else 0) := by
  simp only [line_count, List.count_cons, beq_iff_eq]

theorem line_count_pixels_text (ps : List Pixel) : line_count (pixels_text ps) = ps.length := by
  induction ps with
  | nil => rfl
  | cons p ps ih =>
    simp only [pixels_text, pixel_text, line_count_append, line_count_cons,
      line_count_print_int, ih, List.length_cons]
    simp [line_count]
    omega

theorem line_count_header (h w : Int) : line_count (header_text h w) = 2 := by
  simp only [header_text, line_count_append, line_count_cons, line_count_print_int]
  simp [line_count]

/-! ## The grid of `2^32` pixels -/

theorem wrap_int_huge : (wrap_int (65536 * 65536)).toNat = 0 := by decide

theorem valid_grid_huge : valid_grid huge_grid := by
  refine ⟨by decide, by decide, ?_⟩
  show ((List.replicate huge_count (⟨0, 0, 0⟩ : Pixel)).length : Int) = 65536 * 65536 ∧
    ∀ p ∈ List.replicate huge_count (⟨0, 0, 0⟩ : Pixel), valid_pixel p
  refine ⟨by rw [List.length_replicate]; decide, ?_⟩
  intro p hp
  rw [List.eq_of_mem_replicate hp]
  decide

theorem save_image_huge (name : String) :
    save_image good_sink (some huge_grid) (some name) =
      .ret ⟨true, some (header_text 65536 65536)⟩ := by
  have h := save_image_good good_sink huge_grid _ name rfl rfl (fun _ => rfl)
    (by show (wrap_int (65536 * 65536)).toNat ≤ _; rw [wrap_int_huge]; exact Nat.zero_le _)
  rw [h]
  show Run.ret (Saved.mk true (some (header_text 65536 65536 ++
    pixels_text (List.take (wrap_int (65536 * 65536)).toNat _)))) = _
  rw [wrap_int_huge, List.take_zero]
  simp only [pixels_text, List.append_nil]

theorem load_image_huge_header :
    load_image ample_heap (some (header_text 65536 65536)) = .ok ⟨65536, 65536, some []⟩ := by
  decide

theorem huge_grid_ne_empty :
    Loaded.ok ⟨65536, 65536, some []⟩ ≠ Loaded.ok huge_grid := by
  intro h
  have h2 : ([] : List Pixel) = List.replicate huge_count (⟨0, 0, 0⟩ : Pixel) := by
    simpa [huge_grid] using h
  have h3 := congrArg List.length h2
  rw [List.length_replicate] at h3
  revert h3
  decide

/-! ## White-space-delimited tokens -/

theorem skip_ws_eq_dropWhile (s : List Char) : skip_ws s = s.dropWhile isspace := by
  induction s with
  | nil => rfl
  | cons c cs ih =>
    by_cases hc : isspace c = true
    · simp [skip_ws, List.dropWhile, hc, ih]
    · have hc1 : isspace c = false := by simpa using hc
      simp [skip_ws, List.dropWhile, hc1]

theorem dropWhile_not_space_clean (s : List Char) :
    starts_clean (s.dropWhile (fun c => !isspace c)) := by
  induction s with
  | nil => intro c hc; simp at hc
  | cons d ds ih =>
    by_cases hd : isspace d = true
    · have : (d :: ds).dropWhile (fun c => !isspace c) = d :: ds := by
        simp [List.dropWhile, hd]
      rw [this]
      exact starts_clean_of_space _ hd
    · have hd1 : isspace d = false := by simpa using hd
      have : (d :: ds).dropWhile (fun c => !isspace c) =
          ds.dropWhile (fun c => !isspace c) := by
        simp [List.dropWhile, hd1]
      rw [this]
      exact ih

theorem all_isdigit_iff (ds : List Char) :
    ds.all isdigit = true ↔ ∀ c ∈ ds, isdigit c = true := by
  simp [List.all_eq_true]

/-- The shape of a text whose first token is not empty. -/
theorem first_token_cons (s : List Char) (c : Char) (u : List Char)
    (h : skip_ws s = c :: u) :
    isspace c = false ∧
      first_token s = c :: u.takeWhile (fun c => !isspace c) ∧
      after_first_token s = u.dropWhile (fun c => !isspace c) := by
  have hc : isspace c = false := by
    have := skip_ws_head s c
    rw [h] at this
    exact this (by simp)
  rw [skip_ws_eq_dropWhile] at h
  simp [first_token, after_first_token, h, List.takeWhile, List.dropWhile, hc]

theorem first_token_nil (s : List Char) (h : skip_ws s = []) : first_token s = [] := by
  rw [skip_ws_eq_dropWhile] at h
  simp [first_token, h]

/-- A conversion `%d` fails when the next token does not begin with a decimal
integer. -/
theorem scan_d_none_of_no_integer (s : List Char) (h : no_integer_ahead s) :
    scan_d s = none := by
  unfold no_integer_ahead at h
  cases hu : skip_ws s with
  | nil => simp [scan_d, hu]
  | cons c u =>
    obtain ⟨hc, hT, _⟩ := first_token_cons s c u hu
    rw [hT] at h
    unfold scan_d
    simp only [hu]
    by_cases hsign : c = '-' ∨ c = '+'
    · simp only [begins_with_integer, hsign, if_true] at h
      simp only [hsign, if_true]
      cases u with
      | nil => simp
      | cons d u2 =>
        by_cases hd : isspace d = true
        · simp [List.takeWhile, isspace_not_digit hd]
        · have hd1 : isspace d = false := by simpa using hd
          simp only [List.takeWhile, hd1, Bool.not_false] at h
          simp [List.takeWhile, h]
    · simp only [begins_with_integer, hsign, if_false] at h
      simp [hsign, List.takeWhile, h]

/-- A conversion `%d` on a text whose next token is a decimal integer reads
that token and stops right after it. -/
theorem scan_d_of_integer_token (s : List Char)
    (h : is_integer_token (first_token s) = true) :
    scan_d s = some (store_int (token_value (first_token s)), after_first_token s) := by
  cases hu : skip_ws s with
  | nil => rw [first_token_nil s hu] at h; simp [is_integer_token] at h
  | cons c u =>
    obtain ⟨hc, hT, hR⟩ := first_token_cons s c u hu
    rw [hT] at h ⊢
    rw [hR]
    have hsplit := List.takeWhile_append_dropWhile (fun c => !isspace c) u
    have hclean := dropWhile_not_space_clean u
    unfold scan_d
    simp only [hu]
    by_cases hsign : c = '-' ∨ c = '+'
    · simp only [is_integer_token, hsign, if_true, Bool.and_eq_true, Bool.not_eq_true',
        List.isEmpty_eq_false, all_isdigit_iff] at h
      obtain ⟨hne, hdig⟩ := h
      have htw := takeWhile_digits _ _ hdig hclean
      rw [hsplit] at htw
      simp only [hsign, if_true, htw.1, htw.2]
      have hne2 : ¬ (u.takeWhile (fun c => !isspace c)) = [] := by
        intro he
        rw [he] at hne
        simp at hne
      simp only [hne2, if_false, token_value]
      rcases hsign with rfl | rfl
      · simp
      · simp
    · simp only [is_integer_token, hsign, if_false, all_isdigit_iff] at h
      have htw := takeWhile_digits _ _ h hclean
      rw [List.cons_append, hsplit] at htw
      have hm : ¬ c = '-' := fun e => hsign (Or.inl e)
      have hp : ¬ c = '+' := fun e => hsign (Or.inr e)
      simp only [hm, hp, or_self, if_false, htw.1, htw.2, token_value, reduceCtorEq]

theorem after_first_token_clean (s : List Char) : starts_clean (after_first_token s) :=
  dropWhile_not_space_clean _

/-- The conversion `%5s` on a text whose first token is the magic. -/
theorem scan_s5_of_first_token (f : List Char) (h : first_token f = MAGIC) :
    scan_s5 f = some (MAGIC, after_first_token f) := by
  cases hu : skip_ws f with
  | nil => rw [first_token_nil f hu] at h; simp [MAGIC] at h
  | cons c u =>
    obtain ⟨_, hT, hR⟩ := first_token_cons f c u hu
    have hsplit := List.takeWhile_append_dropWhile (fun c => !isspace c) u
    have hcu : c :: u = MAGIC ++ after_first_token f := by
      rw [← h, hT, hR, List.cons_append, hsplit]
    unfold scan_s5
    simp only [hu]
    rw [hcu, take_word_magic]

theorem take_word_fst : ∀ (n : Nat) (s : List Char),
    (take_word n s).1 = (s.takeWhile (fun c => !isspace c)).take n := by
  intro n
  induction n with
  | zero => intro s; simp [take_word]
  | succ n ih =>
    intro s
    cases s with
    | nil => simp [take_word]
    | cons c cs =>
      by_cases hc : isspace c = true
      · simp [take_word, List.takeWhile, hc]
      · have hc1 : isspace c = false := by simpa using hc
        simp [take_word, List.takeWhile, hc1, ih]

/-- The input item of the conversion `%5s` is made of the first five
characters of the first token. -/
theorem scan_s5_item (f : List Char) :
    (scan_s5 f = none ∧ first_token f = []) ∨
      ∃ rest, scan_s5 f = some ((first_token f).take 5, rest) := by
  cases hu : skip_ws f with
  | nil => exact Or.inl ⟨by simp [scan_s5, hu], first_token_nil f hu⟩
  | cons c u =>
    right
    refine ⟨(take_word 5 (c :: u)).2, ?_⟩
    have h1 : first_token f = (c :: u).takeWhile (fun c => !isspace c) := by
      rw [skip_ws_eq_dropWhile] at hu
      simp [first_token, hu]
    unfold scan_s5
    simp only [hu]
    rw [h1, ← take_word_fst]

/-! ## Reading integer tokens -/

theorem nth_token_zero (s : List Char) : nth_token s 0 = first_token s := rfl

theorem nth_token_succ (s : List Char) (k : Nat) :
    nth_token s (k + 1) = nth_token (after_first_token s) k := rfl

theorem nth_token_add_three (s : List Char) (i : Nat) :
    nth_token (drop_tokens 3 s) i = nth_token s (i + 3) := rfl

theorem fscanf_d_d_tokens (s : List Char)
    (h0 : is_integer_token (nth_token s 0) = true)
    (h1 : is_integer_token (nth_token s 1) = true) :
    fscanf_d_d s = some (store_int (token_value (nth_token s 0)),
      store_int (token_value (nth_token s 1)), drop_tokens 2 s) := by
  have a := scan_d_of_integer_token s h0
  have b := scan_d_of_integer_token (after_first_token s) h1
  simp only [fscanf_d_d, a, scan_d_skip_ws, b]
  rfl

theorem fscanf_d_d_d_tokens (s : List Char)
    (h0 : is_integer_token (nth_token s 0) = true)
    (h1 : is_integer_token (nth_token s 1) = true)
    (h2 : is_integer_token (nth_token s 2) = true) :
    fscanf_d_d_d s = some (⟨store_int (token_value (nth_token s 0)),
      store_int (token_value (nth_token s 1)), store_int (token_value (nth_token s 2))⟩,
      drop_tokens 3 s) := by
  have a := scan_d_of_integer_token s h0
  have b := scan_d_of_integer_token (after_first_token s) h1
  have c := scan_d_of_integer_token (after_first_token (after_first_token s)) h2
  simp only [fscanf_d_d_d, a, scan_d_skip_ws, b, c]
  rfl

theorem fscanf_d_d_d_some (s s3 : List Char) (p : Pixel)
    (h : fscanf_d_d_d s = some (p, s3)) :
    ∃ s1 s2, scan_d s = some (p.red, s1) ∧ scan_d s1 = some (p.green, s2) ∧
      scan_d s2 = some (p.blue, s3) := by
  unfold fscanf_d_d_d at h
  cases ha : scan_d s with
  | none => simp [ha] at h
  | some r1 =>
    obtain ⟨r, s1⟩ := r1
    simp only [ha, scan_d_skip_ws] at h
    cases hb : scan_d s1 with
    | none => simp [hb] at h
    | some r2 =>
      obtain ⟨g, s2⟩ := r2
      simp only [hb] at h
      cases hc : scan_d s2 with
      | none => simp [hc] at h
      | some r3 =>
        obtain ⟨b, s4⟩ := r3
        simp only [hc, Option.some.injEq, Prod.mk.injEq] at h
        obtain ⟨hp, hs⟩ := h
        subst hp hs
        exact ⟨s1, s2, rfl, hb, hc⟩

/-- The decoder on a text whose first three tokens are the magic and two
decimal integers. -/
theorem load_image_tokens (heap : Nat → Bool) (f : List Char)
    (hm1 : malloc heap SIZEOF_IMAGE = true) (hmagic : first_token f = MAGIC)
    (hth : is_integer_token (nth_token f 1) = true)
    (htw : is_integer_token (nth_token f 2) = true) :
    load_image heap (some f) =
      if store_int (token_value (nth_token f 1)) ≤ 0 ∨
          store_int (token_value (nth_token f 2)) ≤ 0 then .error .invalid_dimensions
      else if !malloc heap (pixel_bytes (store_int (token_value (nth_token f 1)))
          (store_int (token_value (nth_token f 2)))) then .error .out_of_memory
      else
        match read_pixels (wrap_int (store_int (token_value (nth_token f 1)) *
            store_int (token_value (nth_token f 2)))).toNat (drop_tokens 3 f) with
        | none => .error .invalid_pixel_data
        | some (ps, _) => .ok ⟨store_int (token_value (nth_token f 1)),
            store_int (token_value (nth_token f 2)), some ps⟩ := by
  have hdims := fscanf_d_d_tokens (after_first_token f) hth htw
  have hmagic2 : ¬ (MAGIC ≠ ['H', 'P', 'D', 'E', 'C']) := by simp [MAGIC]
  simp only [load_image, hm1, Bool.not_true, Bool.false_eq_true, if_false,
    scan_s5_of_first_token f hmagic, hmagic2, hdims]
  rfl

theorem in_range_false_red {p : Pixel} (h : ¬ (0 ≤ p.red ∧ p.red ≤ 255)) :
    in_range p = false := by
  cases hr : in_range p with
  | false => rfl
  | true => exact absurd ⟨(valid_of_in_range hr).1, (valid_of_in_range hr).2.1⟩ h

theorem in_range_false_green {p : Pixel} (h : ¬ (0 ≤ p.green ∧ p.green ≤ 255)) :
    in_range p = false := by
  cases hr : in_range p with
  | false => rfl
  | true => exact absurd ⟨(valid_of_in_range hr).2.2.1, (valid_of_in_range hr).2.2.2.1⟩ h

theorem in_range_false_blue {p : Pixel} (h : ¬ (0 ≤ p.blue ∧ p.blue ≤ 255)) :
    in_range p = false := by
  cases hr : in_range p with
  | false => rfl
  | true =>
    exact absurd ⟨(valid_of_in_range hr).2.2.2.2.1, (valid_of_in_range hr).2.2.2.2.2⟩ h

/-- The read loop fails when, among the channel tokens it needs, the first
one that is not a decimal integer is missing or does not begin with a decimal
integer. -/
theorem read_pixels_none_of_missing : ∀ (n : Nat) (s : List Char) (j : Nat), j < 3 * n →
    (∀ i < j, is_integer_token (nth_token s i) = true) →
    begins_with_integer (nth_token s j) = false → read_pixels n s = none := by
  intro n
  induction n with
  | zero => intro s j hj; omega
  | succ n ih =>
    intro s j hj hint hbad
    unfold read_pixels
    match j, hj, hint, hbad with
    | 0, _, _, hbad =>
      have : scan_d s = none := scan_d_none_of_no_integer s hbad
      simp [fscanf_d_d_d, this]
    | 1, _, hint, hbad =>
      have a := scan_d_of_integer_token s (hint 0 (by omega))
      have b : scan_d (after_first_token s) = none := scan_d_none_of_no_integer _ hbad
      simp [fscanf_d_d_d, a, scan_d_skip_ws, b]
    | 2, _, hint, hbad =>
      have a := scan_d_of_integer_token s (hint 0 (by omega))
      have b := scan_d_of_integer_token (after_first_token s) (hint 1 (by omega))
      have c : scan_d (after_first_token (after_first_token s)) = none :=
        scan_d_none_of_no_integer _ hbad
      simp [fscanf_d_d_d, a, scan_d_skip_ws, b, c]
    | j + 3, hj, hint, hbad =>
      rw [fscanf_d_d_d_tokens s (hint 0 (by omega)) (hint 1 (by omega)) (hint 2 (by omega))]
      have hrec := ih (drop_tokens 3 s) j (by omega)
        (fun i hi => by rw [nth_token_add_three]; exact hint (i + 3) (by omega))
        (by rw [nth_token_add_three]; exact hbad)
      simp only [hrec]
      split <;> rfl

/-- The read loop fails when a channel token it needs, preceded by decimal
integer tokens only, is a decimal integer stored as a value outside
`[0, 255]`. -/
theorem read_pixels_none_of_bad : ∀ (n : Nat) (s : List Char) (j : Nat), j < 3 * n →
    (∀ i ≤ j, is_integer_token (nth_token s i) = true) →
    ¬ (0 ≤ store_int (token_value (nth_token s j)) ∧
        store_int (token_value (nth_token s j)) ≤ 255) →
    read_pixels n s = none := by
  intro n
  induction n with
  | zero => intro s j hj; omega
  | succ n ih =>
    intro s j hj hint hbad
    unfold read_pixels
    cases hscan : fscanf_d_d_d s with
    | none => rfl
    | some r =>
      obtain ⟨p, s3⟩ := r
      obtain ⟨s1, s2, ha, hb, hc⟩ := fscanf_d_d_d_some s s3 p hscan
      have a := scan_d_of_integer_token s (hint 0 (by omega))
      rw [a] at ha
      simp only [Option.some.injEq, Prod.mk.injEq] at ha
      obtain ⟨hred, hs1⟩ := ha
      match j, hj, hint, hbad with
      | 0, _, _, hbad =>
        have : in_range p = false := in_range_false_red (by rw [← hred]; exact hbad)
        simp [this]
      | 1, _, hint, hbad =>
        have b := scan_d_of_integer_token (after_first_token s) (hint 1 (by omega))
        rw [← hs1, b] at hb
        simp only [Option.some.injEq, Prod.mk.injEq] at hb
        have : in_range p = false := in_range_false_green (by rw [← hb.1]; exact hbad)
        simp [this]
      | 2, _, hint, hbad =>
        have b := scan_d_of_integer_token (after_first_token s) (hint 1 (by omega))
        rw [← hs1, b] at hb
        simp only [Option.some.injEq, Prod.mk.injEq] at hb
        have c := scan_d_of_integer_token (after_first_token (after_first_token s))
          (hint 2 (by omega))
        rw [← hb.2, c] at hc
        simp only [Option.some.injEq, Prod.mk.injEq] at hc
        have : in_range p = false := in_range_false_blue (by rw [← hc.1]; exact hbad)
        simp [this]
      | j + 3, hj, hint, hbad =>
        have hfull := fscanf_d_d_d_tokens s (hint 0 (by omega)) (hint 1 (by omega))
          (hint 2 (by omega))
        rw [hfull] at hscan
        simp only [Option.some.injEq, Prod.mk.injEq] at hscan
        have hrec := ih (drop_tokens 3 s) j (by omega)
          (fun i hi => by rw [nth_token_add_three]; exact hint (i + 3) (by omega))
          (by rw [nth_token_add_three]; exact hbad)
        rw [hscan.2] at hrec
        simp only [hrec]
        split <;> rfl

/-! ## What a successful `load_image` returns -/

theorem read_pixels_spec : ∀ (n : Nat) (s r : List Char) (ps : List Pixel),
    read_pixels n s = some (ps, r) → ps.length = n ∧ ∀ p ∈ ps, valid_pixel p := by
  intro n
  induction n with
  | zero =>
    intro s r ps h
    simp only [read_pixels, Option.some.injEq, Prod.mk.injEq] at h
    simp [← h.1]
  | succ n ih =>
    intro s r ps h
    unfold read_pixels at h
    cases hscan : fscanf_d_d_d s with
    | none => simp [hscan] at h
    | some x =>
      obtain ⟨p, s1⟩ := x
      simp only [hscan] at h
      cases hr : in_range p with
      | false => simp [hr] at h
      | true =>
        simp only [hr, if_true] at h
        cases hrec : read_pixels n s1 with
        | none => simp [hrec] at h
        | some y =>
          obtain ⟨qs, r2⟩ := y
          simp only [hrec, Option.some.injEq, Prod.mk.injEq] at h
          obtain ⟨hl, hv⟩ := ih s1 r2 qs hrec
          rw [← h.1]
          refine ⟨by simp [hl], ?_⟩
          intro q hq
          rcases List.mem_cons.1 hq with rfl | hq
          · exact valid_of_in_range hr
          · exact hv q hq

/-- A grid returned by `load_image` has positive dimensions, every channel in
`[0, 255]`, and as many pixels as the `int` product `height * width` says. -/
theorem load_image_invariant (heap : Nat → Bool) (file : Option (List Char)) (g : Image)
    (h : load_image heap file = .ok g) :
    0 < g.height ∧ 0 < g.width ∧
      ∃ ps, g.pixels = some ps ∧ ps.length = (wrap_int (g.height * g.width)).toNat ∧
        ∀ p ∈ ps, valid_pixel p := by
  unfold load_image at h
  split at h
  · cases h
  · split at h
    · cases h
    · split at h
      · cases h
      · split at h
        · cases h
        · split at h
          · cases h
          · split at h
            · cases h
            · split at h
              · cases h
              · split at h
                · cases h
                · rename_i hdim _ ps r hread
                  simp only [Loaded.ok.injEq] at h
                  subst h
                  obtain ⟨hl, hv⟩ := read_pixels_spec _ _ _ _ hread
                  refine ⟨by simp only; omega, by simp only; omega, ps, rfl, hl, hv⟩

/-! ## Appending to the input -/

theorem skip_ws_append_of_cons (s u : List Char) (c : Char) (cs : List Char)
    (h : skip_ws s = c :: cs) : skip_ws (s ++ u) = c :: (cs ++ u) := by
  induction s with
  | nil => simp [skip_ws] at h
  | cons d ds ih =>
    by_cases hd : isspace d = true
    · simp only [skip_ws, hd, if_true, List.cons_append] at h ⊢
      exact ih h
    · have hd1 : isspace d = false := by simpa using hd
      simp only [skip_ws, hd1, Bool.false_eq_true, if_false, List.cons.injEq] at h
      rw [h.1, h.2, List.cons_append, skip_ws_cons_of_not_space _ (by rw [← h.1]; exact hd1)]

theorem take_word_append (c : Char) (t : List Char) (hc : isspace c = true) :
    ∀ (n : Nat) (s : List Char),
      take_word n (s ++ c :: t) = ((take_word n s).1, (take_word n s).2 ++ c :: t) := by
  intro n
  induction n with
  | zero => intro s; simp [take_word]
  | succ n ih =>
    intro s
    cases s with
    | nil => simp [take_word, hc]
    | cons d ds =>
      by_cases hd : isspace d = true
      · simp [take_word, hd]
      · have hd1 : isspace d = false := by simpa using hd
        simp [take_word, hd1, ih]

theorem scan_s5_append (s : List Char) (c : Char) (t : List Char) (hc : isspace c = true)
    (w r : List Char) (h : scan_s5 s = some (w, r)) :
    scan_s5 (s ++ c :: t) = some (w, r ++ c :: t) := by
  unfold scan_s5 at h ⊢
  cases hu : skip_ws s with
  | nil => simp [hu] at h
  | cons d ds =>
    rw [skip_ws_append_of_cons s (c :: t) d ds hu]
    simp only [hu, Option.some.injEq] at h
    have := take_word_append c t hc 5 (d :: ds)
    simp only [List.cons_append] at this
    simp only [this, h]

theorem digits_append (c : Char) (t : List Char) (hc : isdigit c = false) :
    ∀ body : List Char,
      (body ++ c :: t).takeWhile isdigit = body.takeWhile isdigit ∧
        (body ++ c :: t).dropWhile isdigit = body.dropWhile isdigit ++ c :: t := by
  intro body
  induction body with
  | nil => simp [List.takeWhile, List.dropWhile, hc]
  | cons d ds ih =>
    by_cases hd : isdigit d = true
    · simp [List.takeWhile, List.dropWhile, hd, ih.1, ih.2]
    · have hd1 : isdigit d = false := by simpa using hd
      simp [List.takeWhile, List.dropWhile, hd1]

theorem scan_d_append (s : List Char) (c : Char) (t : List Char) (hc : isspace c = true)
    (v : Int) (r : List Char) (h : scan_d s = some (v, r)) :
    scan_d (s ++ c :: t) = some (v, r ++ c :: t) := by
  unfold scan_d at h ⊢
  cases hu : skip_ws s with
  | nil => simp [hu] at h
  | cons d ds =>
    rw [skip_ws_append_of_cons s (c :: t) d ds hu]
    simp only [hu] at h
    have hd := isspace_not_digit hc
    by_cases hsign : d = '-' ∨ d = '+'
    · simp only [hsign, if_true] at h ⊢
      obtain ⟨h1, h2⟩ := digits_append c t hd ds
      rw [h1, h2]
      by_cases hnil : ds.takeWhile isdigit = []
      · simp [hnil] at h
      · simp only [hnil, if_false, Option.some.injEq, Prod.mk.injEq] at h ⊢
        exact ⟨h.1, by rw [h.2]⟩
    · simp only [hsign, if_false] at h ⊢
      obtain ⟨h1, h2⟩ := digits_append c t hd (d :: ds)
      simp only [List.cons_append] at h1 h2
      rw [h1, h2]
      by_cases hnil : (d :: ds).takeWhile isdigit = []
      · simp [hnil] at h
      · simp only [hnil, if_false, Option.some.injEq, Prod.mk.injEq] at h ⊢
        exact ⟨h.1, by rw [h.2]⟩

theorem fscanf_d_d_append (s : List Char) (c : Char) (t : List Char) (hc : isspace c = true)
    (a b : Int) (r : List Char) (h : fscanf_d_d s = some (a, b, r)) :
    fscanf_d_d (s ++ c :: t) = some (a, b, r ++ c :: t) := by
  unfold fscanf_d_d at h ⊢
  cases h1 : scan_d s with
  | none => simp [h1] at h
  | some x =>
    obtain ⟨a1, s1⟩ := x
    simp only [h1, scan_d_skip_ws] at h
    cases h2 : scan_d s1 with
    | none => simp [h2] at h
    | some y =>
      obtain ⟨b1, s2⟩ := y
      simp only [h2, Option.some.injEq, Prod.mk.injEq] at h
      obtain ⟨rfl, rfl, rfl⟩ := h
      simp only [scan_d_append s c t hc a1 s1 h1, scan_d_skip_ws,
        scan_d_append s1 c t hc b1 s2 h2]

theorem fscanf_d_d_d_append (s : List Char) (c : Char) (t : List Char)
    (hc : isspace c = true) (p : Pixel) (r : List Char)
    (h : fscanf_d_d_d s = some (p, r)) :
    fscanf_d_d_d (s ++ c :: t) = some (p, r ++ c :: t) := by
  obtain ⟨s1, s2, h1, h2, h3⟩ := fscanf_d_d_d_some s r p h
  simp only [fscanf_d_d_d, scan_d_append s c t hc _ s1 h1, scan_d_skip_ws,
    scan_d_append s1 c t hc _ s2 h2, scan_d_append s2 c t hc _ r h3]

theorem read_pixels_append (c : Char) (t : List Char) (hc : isspace c = true) :
    ∀ (n : Nat) (s r : List Char) (ps : List Pixel), read_pixels n s = some (ps, r) →
      read_pixels n (s ++ c :: t) = some (ps, r ++ c :: t) := by
  intro n
  induction n with
  | zero =>
    intro s r ps h
    simp only [read_pixels, Option.some.injEq, Prod.mk.injEq] at h ⊢
    exact ⟨h.1, by rw [h.2]⟩
  | succ n ih =>
    intro s r ps h
    unfold read_pixels at h ⊢
    cases hscan : fscanf_d_d_d s with
    | none => simp [hscan] at h
    | some x =>
      obtain ⟨p, s1⟩ := x
      simp only [hscan] at h
      rw [fscanf_d_d_d_append s c t hc p s1 hscan]
      cases hr : in_range p with
      | false => simp [hr] at h
      | true =>
        simp only [hr, if_true] at h ⊢
        cases hrec : read_pixels n s1 with
        | none => simp [hrec] at h
        | some y =>
          obtain ⟨qs, r2⟩ := y
          simp only [hrec, Option.some.injEq, Prod.mk.injEq] at h
          rw [ih s1 r2 qs hrec]
          simp only [Option.some.injEq, Prod.mk.injEq]
          exact ⟨h.1, by rw [h.2]⟩

/-! ## `copy_image` and `apply_NOISE` -/

theorem clamp_bounds (x : Int) : 0 ≤ clamp x ∧ clamp x ≤ 255 := by
  unfold clamp
  split
  · omega
  · split <;> omega

theorem noise_pixel_valid (strength : Int) (r0 r1 r2 : Nat) (p : Pixel) :
    valid_pixel (noise_pixel strength r0 r1 r2 p) := by
  unfold valid_pixel noise_pixel
  exact ⟨(clamp_bounds _).1, (clamp_bounds _).2, (clamp_bounds _).1, (clamp_bounds _).2,
    (clamp_bounds _).1, (clamp_bounds _).2⟩

theorem noise_from_length (rand : Nat → Nat) (strength : Int) :
    ∀ (ps : List Pixel) (k : Nat), (noise_from rand strength k ps).length = ps.length := by
  intro ps
  induction ps with
  | nil => intro k; rfl
  | cons p ps ih => intro k; simp [noise_from, ih]

theorem noise_from_valid (rand : Nat → Nat) (strength : Int) :
    ∀ (ps : List Pixel) (k : Nat), ∀ p ∈ noise_from rand strength k ps, valid_pixel p := by
  intro ps
  induction ps with
  | nil => intro k p hp; simp [noise_from] at hp
  | cons q qs ih =>
    intro k p hp
    simp only [noise_from, List.mem_cons] at hp
    rcases hp with rfl | hp
    · exact noise_pixel_valid _ _ _ _ _
    · exact ih _ p hp

/-- The loop of `apply_NOISE` on the part `b` of the buffer `a ++ b ++ c`. -/
theorem noise_loop_spec (rand : Nat → Nat) (strength : Int) :
    ∀ (b a c : List Pixel) (k : Nat),
      noise_loop rand strength b.length a.length k (a ++ (b ++ c)) =
        .ret (a ++ (noise_from rand strength k b ++ c), k + 3 * b.length) := by
  intro b
  induction b with
  | nil => intro a c k; simp [noise_loop, noise_from]
  | cons p b ih =>
    intro a c k
    have hget : (a ++ (p :: b ++ c))[a.length]? = some p := by
      rw [List.getElem?_append_right (Nat.le_refl _)]
      simp
    have hset : ∀ q : Pixel, (a ++ (p :: b ++ c)).set a.length q = (a ++ [q]) ++ (b ++ c) := by
      intro q
      simp
    have hlen : (a ++ [noise_pixel strength (rand k) (rand (k + 1)) (rand (k + 2)) p]).length =
        a.length + 1 := by simp
    simp only [List.length_cons, noise_loop, hget, hset]
    rw [← hlen, ih]
    simp only [noise_from, List.append_assoc, List.singleton_append, List.cons_append,
      List.nil_append]
    congr 2
    omega

theorem pixel_bytes_of_malloc (heap : Nat → Bool) (h w : Int)
    (hm : malloc heap (pixel_bytes h w) = true) :
    0 ≤ wrap_int (h * w) ∧ pixel_bytes h w = SIZEOF_PIXEL * (wrap_int (h * w)).toNat := by
  have hle : pixel_bytes h w ≤ PTRDIFF_MAX := by
    simp only [malloc, Bool.and_eq_true, decide_eq_true_eq] at hm
    exact hm.1
  generalize hc : wrap_int (h * w) = cnt at *
  have hb1 : -2147483648 ≤ cnt := by rw [← hc]; unfold wrap_int; omega
  have hb2 : cnt ≤ 2147483647 := by rw [← hc]; unfold wrap_int; omega
  unfold pixel_bytes to_size SIZEOF_PIXEL SIZE_RANGE PTRDIFF_MAX at *
  rw [hc] at hle ⊢
  by_cases hneg : cnt < 0
  · exfalso
    have h1 : cnt % 18446744073709551616 = cnt + 18446744073709551616 := by omega
    rw [h1] at hle
    have h2 : ((cnt + 18446744073709551616).toNat : Int) = cnt + 18446744073709551616 :=
      Int.toNat_of_nonneg (by omega)
    generalize (cnt + 18446744073709551616).toNat = m at hle h2
    have hm12 : m * 12 = (18446744073709551616 - 12 * cnt.natAbs) +
        18446744073709551616 * 11 := by omega
    rw [hm12, Nat.add_mul_mod_self_left, Nat.mod_eq_of_lt (by omega)] at hle
    omega
  · have h1 : cnt % 18446744073709551616 = cnt := by omega
    rw [h1]
    have h2 : (cnt.toNat : Int) = cnt := Int.toNat_of_nonneg (by omega)
    refine ⟨by omega, ?_⟩
    generalize cnt.toNat = m at h2 ⊢
    omega

theorem copy_image_spec (heap : Nat → Bool) (g : Image) (ps : List Pixel)
    (hps : g.pixels = some ps)
    (hbuf : (wrap_int (g.height * g.width)).toNat ≤ ps.length)
    (hm1 : malloc heap SIZEOF_IMAGE = true)
    (hm2 : malloc heap (pixel_bytes g.height g.width) = true) :
    copy_image heap (some g) =
      .ret (some ⟨g.height, g.width,
        some (ps.take (wrap_int (g.height * g.width)).toNat)⟩) := by
  obtain ⟨_, hbytes⟩ := pixel_bytes_of_malloc heap g.height g.width hm2
  have hsafe : ¬ (pixel_bytes g.height g.width > SIZEOF_PIXEL * ps.length) := by
    rw [hbytes]
    unfold SIZEOF_PIXEL
    omega
  have hdiv : pixel_bytes g.height g.width / SIZEOF_PIXEL =
      (wrap_int (g.height * g.width)).toNat := by
    rw [hbytes]
    unfold SIZEOF_PIXEL
    omega
  simp only [copy_image, hps, hm1, hm2, Bool.not_true, Bool.false_eq_true, if_false, hsafe,
    hdiv]

/-- What `apply_NOISE` returns when the strength is not negative, the copy is
allocated and the source buffer holds the pixels that the loops visit. -/
theorem apply_NOISE_spec (heap : Nat → Bool) (rand : Nat → Nat) (k0 : Nat) (g : Image)
    (ps : List Pixel) (strength : Int) (hps : g.pixels = some ps)
    (hbuf : (wrap_int (g.height * g.width)).toNat ≤ ps.length)
    (hs : 0 ≤ strength)
    (hm1 : malloc heap SIZEOF_IMAGE = true)
    (hm2 : malloc heap (pixel_bytes g.height g.width) = true) :
    apply_NOISE heap rand k0 (some g) strength =
      .ret (some ⟨g.height, g.width, some (noise_from rand strength k0
          (ps.take (wrap_int (g.height * g.width)).toNat))⟩,
        k0 + 3 * (wrap_int (g.height * g.width)).toNat) := by
  have hneg : ¬ strength < 0 := by omega
  have hlen : (ps.take (wrap_int (g.height * g.width)).toNat).length =
      (wrap_int (g.height * g.width)).toNat := by
    rw [List.length_take]
    omega
  have hloop := noise_loop_spec rand strength
    (ps.take (wrap_int (g.height * g.width)).toNat) [] [] k0
  simp only [List.length_nil, List.nil_append, List.append_nil, hlen] at hloop
  simp only [apply_NOISE, hneg, if_false, copy_image_spec heap g ps hps hbuf hm1 hm2, hloop]

/-! ## The offsets of `apply_NOISE` -/

theorem noise_zero (r : Nat) : noise r 0 = 0 := by
  have h1 : wrap_int (wrap_int (2 * 0) + 1) = 1 := by decide
  unfold noise
  rw [h1, Int.tmod_one]
  decide

theorem clamp_of_channel {x : Int} (h0 : 0 ≤ x) (h1 : x ≤ 255) : clamp x = x := by
  unfold clamp
  have a : ¬ x < 0 := by omega
  have b : ¬ x > 255 := by omega
  simp only [a, b, if_false]

theorem noise_pixel_zero (r0 r1 r2 : Nat) {p : Pixel} (hp : valid_pixel p) :
    noise_pixel 0 r0 r1 r2 p = p := by
  obtain ⟨a, b, c, d, e, f⟩ := hp
  unfold noise_pixel
  simp only [noise_zero, Int.add_zero]
  rw [wrap_int_of_is_int (is_int_of_channel a b), wrap_int_of_is_int (is_int_of_channel c d),
    wrap_int_of_is_int (is_int_of_channel e f), clamp_of_channel a b, clamp_of_channel c d,
    clamp_of_channel e f]

theorem noise_from_zero (rand : Nat → Nat) :
    ∀ (ps : List Pixel) (k : Nat), (∀ p ∈ ps, valid_pixel p) →
      noise_from rand 0 k ps = ps := by
  intro ps
  induction ps with
  | nil => intro k _; rfl
  | cons p ps ih =>
    intro k hv
    simp only [noise_from, noise_pixel_zero _ _ _ (hv p (by simp)),
      ih (k + 3) (fun q hq => hv q (by simp [hq]))]

theorem noise_from_getElem (rand : Nat → Nat) (strength : Int) :
    ∀ (ps : List Pixel) (k i : Nat) (p : Pixel), ps[i]? = some p →
      (noise_from rand strength k ps)[i]? =
        some (noise_pixel strength (rand (k + 3 * i)) (rand (k + 3 * i + 1))
          (rand (k + 3 * i + 2)) p) := by
  intro ps
  induction ps with
  | nil => intro k i p h; simp at h
  | cons q qs ih =>
    intro k i p h
    cases i with
    | zero =>
      simp only [List.getElem?_cons_zero, Option.some.injEq] at h
      subst h
      simp [noise_from]
    | succ i =>
      simp only [List.getElem?_cons_succ] at h
      have := ih (k + 3) i p h
      simp only [noise_from, List.getElem?_cons_succ, this]
      have e : k + 3 + 3 * i = k + 3 * (i + 1) := by omega
      rw [e]

/-- The offset of the source is the offset of the claims as long as
`2 * strength + 1` is an `int`. -/
theorem noise_eq_spec_offset (r : Nat) (s : Int) (h0 : 0 ≤ s) (h1 : s ≤ 1073741823) :
    noise r s = spec_offset r s ∧ -s ≤ spec_offset r s ∧ spec_offset r s ≤ s := by
  have hm : wrap_int (wrap_int (2 * s) + 1) = 2 * s + 1 := by
    unfold wrap_int
    omega
  have hpos : (0 : Int) < 2 * s + 1 := by omega
  have hmod1 : 0 ≤ (r : Int) % (2 * s + 1) := Int.emod_nonneg _ (by omega)
  have hmod2 : (r : Int) % (2 * s + 1) < 2 * s + 1 := Int.emod_lt_of_pos _ hpos
  have ht : Int.tmod (r : Int) (2 * s + 1) = (r : Int) % (2 * s + 1) :=
    Int.tmod_eq_emod (by omega) (by omega)
  unfold noise spec_offset
  rw [hm, ht]
  refine ⟨?_, by omega, by omega⟩
  unfold wrap_int
  omega

theorem clamp_eq_clamp_0_255 (x : Int) : clamp x = clamp_0_255 x := by
  unfold clamp clamp_0_255
  split
  · omega
  · split <;> omega

/-- A channel after the noise is the clamped sum of the claims, and it moves
by at most `s`, as long as `2 * s + 1` is an `int`. -/
theorem noise_channel_spec (x : Int) (r : Nat) (s : Int) (hx0 : 0 ≤ x) (hx1 : x ≤ 255)
    (h0 : 0 ≤ s) (h1 : s ≤ 1073741823) :
    clamp (wrap_int (x + noise r s)) = clamp_0_255 (x + spec_offset r s) ∧
      |clamp_0_255 (x + spec_offset r s) - x| ≤ s := by
  obtain ⟨e, lo, hi⟩ := noise_eq_spec_offset r s h0 h1
  have hw : wrap_int (x + spec_offset r s) = x + spec_offset r s := by
    unfold wrap_int
    omega
  rw [e, hw, clamp_eq_clamp_0_255]
  refine ⟨rfl, ?_⟩
  rw [abs_le]
  unfold clamp_0_255
  omega

/-! ## `apply_HIST` -/

theorem bump_of_channel (hist : Nat → Nat) {x : Int} (h0 : 0 ≤ x) (h1 : x ≤ 255) :
    bump hist x = .ret (fun v => if v = x.toNat then hist v + 1 else hist v) := by
  have h : ¬ (x < 0 ∨ x > 255) := by omega
  simp only [bump, h, if_false]

theorem toNat_eq_iff {x : Int} (h0 : 0 ≤ x) (v : Nat) : v = x.toNat ↔ x = (v : Int) := by
  omega

theorem occurrences_cons (v : Int) (p : Pixel) (ps : List Pixel) :
    occurrences v (p :: ps) =
      occurrences v ps + (if p.blue = v then 1 else 0) + (if p.green = v then 1 else 0) +
        (if p.red = v then 1 else 0) := by
  simp only [occurrences, channels, List.count_cons, beq_iff_eq]

theorem occurrences_nil (v : Int) : occurrences v [] = 0 := rfl

/-- The counting loop on valid pixels adds to each counter the number of
channels with its value among the pixels it visits. -/
theorem hist_loop_spec (ps : List Pixel) (hv : ∀ p ∈ ps, valid_pixel p) :
    ∀ (n i : Nat) (hist : Nat → Nat), i + n ≤ ps.length →
      ∃ h, hist_loop ps n i hist = .ret h ∧
        ∀ v : Nat, h v = hist v + occurrences (v : Int) ((ps.drop i).take n) := by
  intro n
  induction n with
  | zero =>
    intro i hist _
    exact ⟨hist, rfl, fun v => by simp [occurrences_nil]⟩
  | succ n ih =>
    intro i hist hlen
    have hi : i < ps.length := by omega
    have hget : ps[i]? = some ps[i] := List.getElem?_eq_getElem hi
    obtain ⟨a, b, c, d, e, f⟩ := hv ps[i] (List.getElem_mem hi)
    obtain ⟨h, hrun, hval⟩ := ih (i + 1)
      (fun v => if v = (ps[i]).blue.toNat then
          (if v = (ps[i]).green.toNat then
            (if v = (ps[i]).red.toNat then hist v + 1 else hist v) + 1
          else (if v = (ps[i]).red.toNat then hist v + 1 else hist v)) + 1
        else
          (if v = (ps[i]).green.toNat then
            (if v = (ps[i]).red.toNat then hist v + 1 else hist v) + 1
          else (if v = (ps[i]).red.toNat then hist v + 1 else hist v)))
      (by omega)
    refine ⟨h, ?_, ?_⟩
    · unfold hist_loop
      simp only [hget, bump_of_channel _ a b, bump_of_channel _ c d, bump_of_channel _ e f]
      exact hrun
    · intro v
      rw [hval v, List.drop_eq_getElem_cons hi, List.take_succ_cons, occurrences_cons]
      simp only [toNat_eq_iff a, toNat_eq_iff c, toNat_eq_iff e]
      split <;> split <;> split <;> omega

theorem wrap_int_toNat_le {x : Int} (h : 0 ≤ x) : (wrap_int x).toNat ≤ x.toNat := by
  unfold wrap_int
  omega

/-- The counters of a grid whose buffer holds the pixels that the loop
visits, all of them valid. -/
theorem histogram_spec (height width : Int) (ps : List Pixel)
    (hv : ∀ p ∈ ps, valid_pixel p)
    (hbuf : (wrap_int (height * width)).toNat ≤ ps.length) :
    ∃ h, histogram height width ps = .ret h ∧
      ∀ v : Nat, h v = occurrences (v : Int) (ps.take (wrap_int (height * width)).toNat) := by
  obtain ⟨h, hrun, hval⟩ := hist_loop_spec ps hv (wrap_int (height * width)).toNat 0
    (fun _ => 0) (by omega)
  exact ⟨h, hrun, fun v => by simpa using hval v⟩

theorem print_int_natCast (n : Nat) : print_int (n : Int) = decimal n := by
  have h : ¬ ((n : Int) < 0) := by omega
  simp only [print_int, h, if_false, Int.natAbs_ofNat]

theorem print_hist_eq (hist : Nat → Nat) : ∀ (n i : Nat),
    print_hist hist n i = ((List.range' i n).map fun v =>
      "Value ".toList ++ decimal v ++ ": ".toList ++ decimal (hist v) ++
        " pixels\n".toList).flatten := by
  intro n
  induction n with
  | zero => intro i; rfl
  | succ n ih =>
    intro i
    rw [print_hist, ih (i + 1), List.range'_succ, List.map_cons, List.flatten_cons, hist_line,
      print_int_natCast]
    rfl

theorem print_hist_report (hist : Nat → Nat) : print_hist hist 256 0 = report_text hist := by
  rw [print_hist_eq, report_text, List.range_eq_range']

theorem line_count_decimal (n : Nat) : line_count (decimal n) = 0 :=
  count_newline_digits _ (decimal_isdigit n)

theorem line_count_print_hist (hist : Nat → Nat) : ∀ (n i : Nat),
    line_count (print_hist hist n i) = n := by
  intro n
  induction n with
  | zero => intro i; rfl
  | succ n ih =>
    intro i
    have h1 : line_count (hist_line i (hist i)) = 1 := by
      simp only [hist_line, line_count_append, line_count_print_int, line_count_decimal]
      decide
    rw [print_hist, line_count_append, h1, ih]
    omega

/-- What `apply_HIST` returns on a grid whose buffer holds the pixels that
the loop visits, all of them valid. -/
theorem apply_HIST_spec (g : Image) (ps : List Pixel) (hps : g.pixels = some ps)
    (hv : ∀ p ∈ ps, valid_pixel p)
    (hbuf : (wrap_int (g.height * g.width)).toNat ≤ ps.length) :
    ∃ h, histogram g.height g.width ps = .ret h ∧
      apply_HIST (some g) = .ret (true, report_text h) ∧
      ∀ v : Nat, h v = occurrences (v : Int)
        (ps.take (wrap_int (g.height * g.width)).toNat) := by
  obtain ⟨h, hrun, hval⟩ := histogram_spec g.height g.width ps hv hbuf
  refine ⟨h, hrun, ?_, hval⟩
  simp only [apply_HIST, hps, hrun, print_hist_report]

/-! ## Sums of counters -/

theorem sum_map_add (l : List Nat) (f g : Nat → Nat) :
    (l.map fun v => f v + g v).sum = (l.map f).sum + (l.map g).sum := by
  induction l with
  | nil => rfl
  | cons a l ih =>
    simp only [List.map_cons, List.sum_cons, ih]
    omega

theorem sum_map_zero (l : List Nat) : (l.map fun _ : Nat => (0 : Nat)).sum = 0 := by
  induction l with
  | nil => rfl
  | cons a l ih => simp only [List.map_cons, List.sum_cons, ih]

theorem sum_indicator (k : Nat) : ∀ n : Nat,
    ((List.range n).map fun v : Nat => if (k : Int) = (v : Int) then 1 else 0).sum =
      if k < n then 1 else 0 := by
  intro n
  induction n with
  | zero => rfl
  | succ n ih =>
    rw [List.range_succ, List.map_append, List.sum_append, ih]
    simp only [List.map_cons, List.map_nil, List.sum_cons, List.sum_nil]
    split <;> split <;> split <;> omega

theorem sum_count_channel (x : Int) (h0 : 0 ≤ x) (h1 : x ≤ 255) :
    ((List.range 256).map fun v : Nat => if x = (v : Int) then 1 else 0).sum = 1 := by
  obtain ⟨k, rfl⟩ : ∃ k : Nat, x = (k : Int) := ⟨x.toNat, by omega⟩
  rw [sum_indicator k 256]
  have : k < 256 := by omega
  simp only [this, if_true]

/-- The counters of the values 0 to 255 add up to three times the number of
pixels, for pixels with channels in `[0, 255]`. -/
theorem sum_occurrences : ∀ ps : List Pixel, (∀ p ∈ ps, valid_pixel p) →
    ((List.range 256).map fun v : Nat => occurrences (v : Int) ps).sum = 3 * ps.length := by
  intro ps
  induction ps with
  | nil =>
    intro _
    simp only [occurrences_nil]
    rw [sum_map_zero]
    rfl
  | cons p ps ih =>
    intro hv
    obtain ⟨a, b, c, d, e, f⟩ := hv p (by simp)
    have hrec := ih (fun q hq => hv q (by simp [hq]))
    simp only [occurrences_cons]
    rw [sum_map_add, sum_map_add, sum_map_add, hrec, sum_count_channel _ a b,
      sum_count_channel _ c d, sum_count_channel _ e f, List.length_cons]
    omega

theorem occurrences_replicate (n : Nat) :
    occurrences 0 (List.replicate n (⟨0, 0, 0⟩ : Pixel)) = 3 * n := by
  induction n with
  | zero => rfl
  | succ n ih =>
    rw [List.replicate_succ, occurrences_cons, ih]
    simp only [if_true]
    omega

theorem channels_valid : ∀ ps : List Pixel, (∀ p ∈ ps, valid_pixel p) →
    ∀ x ∈ channels ps, 0 ≤ x ∧ x ≤ 255 := by
  intro ps
  induction ps with
  | nil => intro _ x hx; simp [channels] at hx
  | cons p ps ih =>
    intro hv x hx
    obtain ⟨a, b, c, d, e, f⟩ := hv p (by simp)
    simp only [channels, List.mem_cons] at hx
    rcases hx with rfl | rfl | rfl | hx
    · exact ⟨a, b⟩
    · exact ⟨c, d⟩
    · exact ⟨e, f⟩
    · exact ih (fun q hq => hv q (by simp [hq])) x hx

/-! ## The text written for a decoded grid -/

theorem free_append_length (mem : List Slot) (x : Slot) (rest : List Slot) :
    free (mem ++ x :: rest) mem.length = mem ++ ⟨x.block, x.released + 1⟩ :: rest := by
  induction mem with
  | nil => rfl
  | cons s mem ih =>
    show free (s :: (mem ++ x :: rest)) (mem.length + 1) =
      s :: (mem ++ ⟨x.block, x.released + 1⟩ :: rest)
    rw [free, ih]

theorem getElem?_append_length (mem : List Slot) (x : Slot) (rest : List Slot) :
    (mem ++ x :: rest)[mem.length]? = some x := by
  rw [List.getElem?_append_right (Nat.le_refl _)]
  simp

theorem set_append_length (mem : List Slot) (x y : Slot) (rest : List Slot) :
    (mem ++ x :: rest).set mem.length y = mem ++ y :: rest := by
  induction mem with
  | nil => rfl
  | cons s mem ih => simp only [List.cons_append, List.length_cons, List.set_cons_succ, ih]

/-- The loop of `apply_NOISE` on the heap writes the buffer of the result as
the loop on values does, and leaves every other block as it is. -/
theorem store_noise_loop_spec (rand : Nat → Nat) (strength : Int) (pre post : List Slot) :
    ∀ (n i k : Nat) (ps ps1 : List Pixel) (k1 : Nat),
      noise_loop rand strength n i k ps = .ret (ps1, k1) →
      Store.noise_loop rand strength pre.length n i k (pre ++ ⟨.buffer ps, 0⟩ :: post) =
        .ret (pre ++ ⟨.buffer ps1, 0⟩ :: post, k1) := by
  intro n
  induction n with
  | zero =>
    intro i k ps ps1 k1 h
    simp only [noise_loop, Run.ret.injEq, Prod.mk.injEq] at h
    simp only [Store.noise_loop, h.1, h.2]
  | succ n ih =>
    intro i k ps ps1 k1 h
    unfold noise_loop at h
    unfold Store.noise_loop
    rw [getElem?_append_length]
    cases hget : ps[i]? with
    | none => simp [hget] at h
    | some p =>
      simp only [hget] at h ⊢
      rw [set_append_length]
      exact ih _ _ _ _ _ h

/-- What `apply_NOISE` does on the heap when the strength is not negative,
the copy is allocated and the source buffer holds the pixels that the loops
visit: two blocks are appended, the result and its buffer. -/
theorem store_apply_NOISE_spec (heap : Nat → Bool) (rand : Nat → Nat) (k0 : Nat)
    (mem : List Slot) (src b : Nat) (h w : Int) (ps : List Pixel) (strength : Int)
    (hsrc : mem[src]? = some ⟨.image h w (some b), 0⟩)
    (hb : mem[b]? = some ⟨.buffer ps, 0⟩)
    (hbuf : (wrap_int (h * w)).toNat ≤ ps.length) (hs : 0 ≤ strength)
    (hm1 : malloc heap SIZEOF_IMAGE = true) (hm2 : malloc heap (pixel_bytes h w) = true) :
    Store.apply_NOISE heap rand k0 mem (some src) strength =
      .ret (some mem.length,
        mem ++ [⟨.image h w (some (mem.length + 1)), 0⟩,
          ⟨.buffer (noise_from rand strength k0 (ps.take (wrap_int (h * w)).toNat)), 0⟩],
        k0 + 3 * (wrap_int (h * w)).toNat) := by
  have hneg : ¬ strength < 0 := by omega
  obtain ⟨_, hbytes⟩ := pixel_bytes_of_malloc heap h w hm2
  have hsafe : ¬ (pixel_bytes h w > SIZEOF_PIXEL * ps.length) := by
    rw [hbytes]
    unfold SIZEOF_PIXEL
    omega
  have hdiv : pixel_bytes h w / SIZEOF_PIXEL = (wrap_int (h * w)).toNat := by
    rw [hbytes]
    unfold SIZEOF_PIXEL
    omega
  have hlen : (ps.take (wrap_int (h * w)).toNat).length = (wrap_int (h * w)).toNat := by
    rw [List.length_take]
    omega
  have hloop := noise_loop_spec rand strength (ps.take (wrap_int (h * w)).toNat) [] [] k0
  simp only [List.length_nil, List.nil_append, List.append_nil, hlen] at hloop
  have hstore := store_noise_loop_spec rand strength
    (mem ++ [⟨.image h w (some (mem.length + 1)), 0⟩]) [] _ 0 k0 _ _ _ hloop
  simp only [List.length_append, List.length_singleton, List.append_assoc,
    List.singleton_append] at hstore
  have hres : (mem ++ [(⟨.image h w (some (mem.length + 1)), 0⟩ : Slot),
      ⟨.buffer (ps.take (wrap_int (h * w)).toNat), 0⟩])[mem.length]? =
      some ⟨.image h w (some (mem.length + 1)), 0⟩ := getElem?_append_length _ _ _
  simp only [Store.apply_NOISE, hneg, if_false, Store.copy_image, hsrc, hb, hm1, hm2,
    Bool.not_true, Bool.false_eq_true, hsafe, hdiv, hres, hstore]

/-- A call of `apply_NOISE` with a negative strength, or whose first
allocation fails, returns `NULL` and leaves the heap as it is; when the second
allocation fails the block of the copy has been allocated and released. -/
theorem store_apply_NOISE_fail (heap : Nat → Bool) (rand : Nat → Nat) (k0 : Nat)
    (mem : List Slot) (src b : Nat) (h w : Int) (strength : Int)
    (hsrc : mem[src]? = some ⟨.image h w (some b), 0⟩) :
    (strength < 0 → Store.apply_NOISE heap rand k0 mem (some src) strength =
        .ret (none, mem, k0)) ∧
      (¬ strength < 0 → malloc heap SIZEOF_IMAGE = false →
        Store.apply_NOISE heap rand k0 mem (some src) strength = .ret (none, mem, k0)) ∧
      (¬ strength < 0 → malloc heap SIZEOF_IMAGE = true →
        malloc heap (pixel_bytes h w) = false →
        Store.apply_NOISE heap rand k0 mem (some src) strength =
          .ret (none, mem ++ [⟨.image h w none, 1⟩], k0)) := by
  refine ⟨?_, ?_, ?_⟩
  · intro hs
    simp only [Store.apply_NOISE, hs, if_true]
  · intro hs hm
    simp only [Store.apply_NOISE, hs, if_false, Store.copy_image, hsrc, hm, Bool.not_false,
      if_true]
  · intro hs hm1 hm2
    have hf := free_append_length mem ⟨.image h w none, 0⟩ []
    simp only [Store.apply_NOISE, hs, if_false, Store.copy_image, hsrc, hm1, hm2,
      Bool.not_true, Bool.false_eq_true, Bool.not_false, if_true, hf]

/-- What `load_image` does on the empty heap: on failure every block it has
allocated has been released once, on success the heap holds the image and its
buffer, with the value that `load_image` returns. -/
theorem store_load_image_spec (heap : Nat → Bool) (file : Option (List Char)) :
    (∃ mem, Store.load_image heap file [] = (none, mem) ∧ ∀ s ∈ mem, s.released = 1) ∨
      ∃ (h w : Int) (ps : List Pixel),
        Store.load_image heap file [] =
          (some 0, [⟨.image h w (some 1), 0⟩, ⟨.buffer ps, 0⟩]) ∧
        load_image heap file = .ok ⟨h, w, some ps⟩ := by
  unfold Store.load_image load_image
  cases file with
  | none => exact Or.inl ⟨[], rfl, by simp⟩
  | some f =>
    simp only
    cases hm1 : malloc heap SIZEOF_IMAGE with
    | false => exact Or.inl ⟨[], by simp, by simp⟩
    | true =>
      simp only [Bool.not_true, Bool.false_eq_true, if_false]
      cases h5 : scan_s5 f with
      | none => exact Or.inl ⟨_, rfl, by simp [free]⟩
      | some x =>
        obtain ⟨fmt, f1⟩ := x
        simp only
        by_cases hfmt : fmt ≠ ['H', 'P', 'D', 'E', 'C']
        · have hfmt2 : (fmt ≠ ['H', 'P', 'D', 'E', 'C']) = True := eq_true hfmt
          simp only [hfmt2, if_true]
          exact Or.inl ⟨_, rfl, by simp [free]⟩
        · simp only [hfmt, if_false]
          cases hd : fscanf_d_d f1 with
          | none => exact Or.inl ⟨_, rfl, by simp [free]⟩
          | some y =>
            obtain ⟨hh, ww, f2⟩ := y
            simp only
            by_cases hdim : hh ≤ 0 ∨ ww ≤ 0
            · simp only [hdim, if_true]
              exact Or.inl ⟨_, rfl, by simp [free]⟩
            · simp only [hdim, if_false]
              cases hm2 : malloc heap (pixel_bytes hh ww) with
              | false =>
                simp only [Bool.not_false, if_true]
                exact Or.inl ⟨_, rfl, by simp [free]⟩
              | true =>
                simp only [Bool.not_true, Bool.false_eq_true, if_false]
                cases hr : read_pixels (wrap_int (hh * ww)).toNat f2 with
                | none => exact Or.inl ⟨_, rfl, by simp [free]⟩
                | some z =>
                  obtain ⟨ps, r⟩ := z
                  exact Or.inr ⟨hh, ww, ps, rfl, rfl⟩

theorem write_pixels_defined (sink : Sink) (ps : List Pixel) :
    ∀ (n i : Nat) (out : List Char), i + n ≤ ps.length →
      ∃ r, write_pixels sink ps n i out = .ret r := by
  intro n
  induction n with
  | zero => intro i out _; exact ⟨_, rfl⟩
  | succ n ih =>
    intro i out h
    have hi : i < ps.length := by omega
    have hget : ps[i]? = some ps[i] := List.getElem?_eq_getElem hi
    unfold write_pixels
    simp only [hget]
    cases sink.accepts (i + 1) with
    | false => exact ⟨_, rfl⟩
    | true => exact ih (i + 1) _ (by omega)

/-- A call of `save_image` on a grid whose buffer holds the pixels that the
loop visits returns, whatever the destination does. -/
theorem save_image_defined (sink : Sink) (g : Image) (ps : List Pixel)
    (name : Option String) (hps : g.pixels = some ps)
    (hbuf : (wrap_int (g.height * g.width)).toNat ≤ ps.length) :
    ∃ r, save_image sink (some g) name = .ret r := by
  unfold save_image
  simp only [hps]
  cases name with
  | none => exact ⟨_, rfl⟩
  | some nm =>
    simp only
    cases sink.opens with
    | false => exact ⟨_, rfl⟩
    | true =>
      cases sink.accepts 0 with
      | false => exact ⟨_, rfl⟩
      | true => exact write_pixels_defined sink ps _ 0 _ (by omega)

/-! ## The paths of `main` -/

theorem released_two (b0 b1 : Block) :
    ∀ s ∈ free_image [⟨b0, 0⟩, ⟨b1, 0⟩] none, s.released = 0 := by
  intro s hs
  simp only [free_image, List.mem_cons, List.mem_singleton, List.not_mem_nil, or_false] at hs
  rcases hs with rfl | rfl <;> rfl

theorem fetch_result (h w : Int) (ps qs : List Pixel) (r0 r1 : Nat) :
    Store.fetch [⟨.image h w (some 1), r0⟩, ⟨.buffer ps, r1⟩, ⟨.image h w (some 3), 0⟩,
      ⟨.buffer qs, 0⟩] 2 = some ⟨h, w, some qs⟩ := rfl

theorem free_both (h w : Int) (ps qs : List Pixel) :
    free_image (free_image [⟨.image h w (some 1), 0⟩, ⟨.buffer ps, 0⟩,
      ⟨.image h w (some 3), 0⟩, ⟨.buffer qs, 0⟩] (some 0)) (some 2) =
      [⟨.image h w (some 1), 1⟩, ⟨.buffer ps, 1⟩, ⟨.image h w (some 3), 1⟩,
        ⟨.buffer qs, 1⟩] := rfl

theorem free_input (h w : Int) (ps : List Pixel) (rest : List Slot) :
    free_image (⟨.image h w (some 1), 0⟩ :: ⟨.buffer ps, 0⟩ :: rest) (some 0) =
      ⟨.image h w (some 1), 1⟩ :: ⟨.buffer ps, 1⟩ :: rest := rfl

/-- Every path of the body of `main` returns, and at the end each block that
has been allocated has been released exactly once. -/
theorem pipeline_released (heap heap_n : Nat → Bool) (rand : Nat → Nat)
    (files : String → Option (List Char)) (sink : Sink) (input output : String)
    (strength : Int) :
    ∃ e, pipeline heap heap_n rand files sink input output strength = .ret e ∧
      (∀ s ∈ e.heap, s.released = 1) ∧ (e.status = 0 → e.heap.length = 4) := by
  rcases store_load_image_spec heap (files input) with ⟨mem, hl, hrel⟩ | ⟨h, w, ps, hl, hval⟩
  · exact ⟨⟨1, mem, [], none⟩, by simp only [pipeline, hl], hrel,
      fun h0 => absurd h0 (show ¬ (1 : Int) = 0 by decide)⟩
  · obtain ⟨_, _, qs, hqs, hlen, hv⟩ := load_image_invariant heap (files input) _ hval
    simp only [Option.some.injEq] at hqs
    subst hqs
    simp only at hlen
    have hsrc : ([⟨.image h w (some 1), 0⟩, ⟨.buffer ps, 0⟩] : List Slot)[0]? =
        some ⟨.image h w (some 1), 0⟩ := rfl
    have hb : ([⟨.image h w (some 1), 0⟩, ⟨.buffer ps, 0⟩] : List Slot)[1]? =
        some ⟨.buffer ps, 0⟩ := rfl
    obtain ⟨f1, f2, f3⟩ := store_apply_NOISE_fail heap_n rand 0 _ 0 1 h w strength hsrc
    by_cases hs : strength < 0
    · exact ⟨⟨1, [⟨.image h w (some 1), 1⟩, ⟨.buffer ps, 1⟩], [], none⟩,
        by simp only [pipeline, hl, f1 hs, free_input], by simp,
          fun h0 => absurd h0 (show ¬ (1 : Int) = 0 by decide)⟩
    · cases hm1 : malloc heap_n SIZEOF_IMAGE with
      | false =>
        exact ⟨⟨1, [⟨.image h w (some 1), 1⟩, ⟨.buffer ps, 1⟩], [], none⟩,
          by simp only [pipeline, hl, f2 hs hm1, free_input], by simp,
          fun h0 => absurd h0 (show ¬ (1 : Int) = 0 by decide)⟩
      | true =>
        cases hm2 : malloc heap_n (pixel_bytes h w) with
        | false =>
          exact ⟨⟨1, [⟨.image h w (some 1), 1⟩, ⟨.buffer ps, 1⟩, ⟨.image h w none, 1⟩], [],
            none⟩,
            by simp only [pipeline, hl, f3 hs hm1 hm2, List.cons_append, List.nil_append,
              free_input], by simp,
          fun h0 => absurd h0 (show ¬ (1 : Int) = 0 by decide)⟩
        | true =>
          have hnoise := store_apply_NOISE_spec heap_n rand 0 _ 0 1 h w ps strength hsrc hb
            (by omega) (by omega) hm1 hm2
          simp only [List.length_cons, List.length_nil, List.cons_append, List.nil_append,
            Nat.zero_add, Nat.reduceAdd] at hnoise
          have htake : ps.take (wrap_int (h * w)).toNat = ps := by
            rw [← hlen, List.take_length]
          rw [htake] at hnoise
          have hqv := noise_from_valid rand strength ps 0
          have hql : (noise_from rand strength 0 ps).length = (wrap_int (h * w)).toNat := by
            rw [noise_from_length, hlen]
          obtain ⟨hist, _, hh, _⟩ := apply_HIST_spec
            ⟨h, w, some (noise_from rand strength 0 ps)⟩ _ rfl hqv (by simp only; omega)
          obtain ⟨⟨b, f⟩, hsave⟩ := save_image_defined sink
            ⟨h, w, some (noise_from rand strength 0 ps)⟩ _ (some output) rfl
            (by simp only; omega)
          cases b with
          | false =>
            exact ⟨⟨1, [⟨.image h w (some 1), 1⟩, ⟨.buffer ps, 1⟩, ⟨.image h w (some 3), 1⟩,
              ⟨.buffer (noise_from rand strength 0 ps), 1⟩], report_text hist, f⟩,
              by simp only [pipeline, hl, hnoise, Store.apply_HIST, Store.save_image,
                fetch_result, hh, hsave, free_both], by simp,
                fun h0 => absurd h0 (show ¬ (1 : Int) = 0 by decide)⟩
          | true =>
            exact ⟨⟨0, [⟨.image h w (some 1), 1⟩, ⟨.buffer ps, 1⟩, ⟨.image h w (some 3), 1⟩,
              ⟨.buffer (noise_from rand strength 0 ps), 1⟩], report_text hist, f⟩,
              by simp only [pipeline, hl, hnoise, Store.apply_HIST, Store.save_image,
                fetch_result, hh, hsave, free_both], by simp, fun _ => rfl⟩

theorem fetch_some (mem : List Slot) (a : Nat) (h w : Int) (ps : List Pixel)
    (hg : Store.fetch mem a = some ⟨h, w, some ps⟩) :
    ∃ b, mem[a]? = some ⟨.image h w (some b), 0⟩ ∧ mem[b]? = some ⟨.buffer ps, 0⟩ := by
  unfold Store.fetch at hg
  cases ha : mem[a]? with
  | none => rw [ha] at hg; cases hg
  | some s =>
    rw [ha] at hg
    obtain ⟨blk, rel⟩ := s
    cases blk with
    | buffer qs => cases hg
    | image h1 w1 px =>
      cases rel with
      | succ n => cases hg
      | zero =>
        cases px with
        | none => cases hg
        | some b =>
          simp only at hg
          cases hb : mem[b]? with
          | none => rw [hb] at hg; cases hg
          | some t =>
            rw [hb] at hg
            obtain ⟨blk2, rel2⟩ := t
            cases blk2 with
            | image _ _ _ => cases hg
            | buffer qs =>
              cases rel2 with
              | succ n => cases hg
              | zero =>
                simp only [Option.some.injEq, Image.mk.injEq] at hg
                obtain ⟨rfl, rfl, rfl⟩ := hg
                exact ⟨b, rfl, hb⟩

theorem fetch_of_blocks (mem : List Slot) (a b : Nat) (h w : Int) (ps : List Pixel)
    (ha : mem[a]? = some ⟨.image h w (some b), 0⟩) (hb : mem[b]? = some ⟨.buffer ps, 0⟩) :
    Store.fetch mem a = some ⟨h, w, some ps⟩ := by
  simp only [Store.fetch, ha, hb]

theorem getElem?_append_old (mem rest : List Slot) (a : Nat) (ha : a < mem.length) :
    (mem ++ rest)[a]? = mem[a]? := List.getElem?_append_left ha

theorem wrap_int_count (h w : Int) (n : Nat) (hshape : (n : Int) = h * w)
    (hfit : h * w ≤ INT_MAX) : (wrap_int (h * w)).toNat = n := by
  rw [wrap_int_of_is_int, ← hshape]
  · simp
  · unfold is_int INT_MIN
    omega

/-! ## C1: round trip -/

/-- C1 (amended): for every valid grid (positive height and width, exactly
`height * width` pixels, every channel in `[0, 255]`) whose pixel count
`height * width` is at most `INT_MAX`, `save_image` into a destination that
accepts every write succeeds, and `load_image` decodes the text it has written
to a grid with the same height, the same width and the same pixels in the
same order. -/
theorem C1_round_trip (heap : Nat → Bool) (sink : Sink) (g : Image) (name : String)
    (hg : valid_grid g) (hfit : g.height * g.width ≤ INT_MAX)
    (hopen : sink.opens = true) (hacc : ∀ k, sink.accepts k = true)
    (hm1 : malloc heap SIZEOF_IMAGE = true)
    (hm2 : malloc heap (pixel_bytes g.height g.width) = true) :
    ∃ text, save_image sink (some g) (some name) = .ret ⟨true, some text⟩ ∧
      load_image heap (some text) = .ok g := by
  obtain ⟨h, w, px⟩ := g
  obtain ⟨h0, w0, hpx⟩ := hg
  cases px with
  | none => exact absurd hpx (by simp)
  | some ps =>
    obtain ⟨hlen, hv⟩ := hpx
    simp only at hlen hfit hm2 h0 w0
    have hcount : (wrap_int (h * w)).toNat = ps.length := by
      rw [wrap_int_product h0 w0 hfit, ← hlen]
      simp
    refine ⟨header_text h w ++ pixels_text ps, ?_, ?_⟩
    · rw [save_image_good sink _ ps name rfl hopen hacc (by simp only; omega)]
      simp only [hcount, List.take_length]
    · rw [saved_text_render]
      have hsep : well_separated ((['\n'], h) :: ([' '], w) :: (pixel_tokens ps ++ [])) := by
        rw [well_separated_cons, well_separated_cons, List.append_nil]
        exact ⟨sep_newline h, sep_blank w, pixel_tokens_separated ps⟩
      have := load_image_render heap [] ['\n'] (['\n'], h) ([' '], w) (pixel_tokens ps) [] ps
        hm1 hm2 (by simp) hsep (pixel_tokens_channels ps) h0 w0 hfit hlen hv (by decide)
      simpa using this

/-- C1, witness: the round trip of the 1 by 2 grid with the pixels (0,0,0) and
(255,1,2). -/
theorem C1_round_trip_witness :
    valid_grid ⟨1, 2, some [⟨0, 0, 0⟩, ⟨255, 1, 2⟩]⟩ ∧
      ∃ text, save_image good_sink (some ⟨1, 2, some [⟨0, 0, 0⟩, ⟨255, 1, 2⟩]⟩) (some "out") =
          .ret ⟨true, some text⟩ ∧
        load_image ample_heap (some text) = .ok ⟨1, 2, some [⟨0, 0, 0⟩, ⟨255, 1, 2⟩]⟩ :=
  ⟨by decide,
    C1_round_trip ample_heap good_sink ⟨1, 2, some [⟨0, 0, 0⟩, ⟨255, 1, 2⟩]⟩ "out"
      (by decide) (by decide) rfl (fun _ => rfl) (by decide) (by decide)⟩

/-- C1, counterexample: the grid of 65536 by 65536 black pixels is valid, but
the loop bound `height * width` of `save_image` wraps to 0, so only the header
is written, and the decoded grid has no pixel. -/
theorem C1_round_trip_counterexample :
    valid_grid huge_grid ∧
      save_image good_sink (some huge_grid) (some "out") =
        .ret ⟨true, some (header_text 65536 65536)⟩ ∧
      load_image ample_heap (some (header_text 65536 65536)) =
        .ok ⟨65536, 65536, some []⟩ ∧
      Loaded.ok ⟨65536, 65536, some []⟩ ≠ Loaded.ok huge_grid :=
  ⟨valid_grid_huge, save_image_huge "out", load_image_huge_header, huge_grid_ne_empty⟩

/-! ## C3: decoding a well-formed text -/

/-- C3 (amended): for every height `h > 0` and width `w > 0` with
`h * w ≤ INT_MAX` and every list of `h * w` pixels with channels in
`[0, 255]`, `load_image` applied to the text made of the token `HPDEC`, the
decimal tokens `h` and `w` and the `3 * h * w` decimal channel tokens in
row-major order, each token preceded by a non-empty run of white space,
succeeds and returns the grid with height `h`, width `w` and exactly those
pixels in that order. -/
theorem C3_well_formed_decode (heap : Nat → Bool) (h w : Int) (ps : List Pixel)
    (toks : List (List Char × Int)) (tail : List Char)
    (h0 : 0 < h) (w0 : 0 < w) (hfit : h * w ≤ INT_MAX)
    (hlen : (ps.length : Int) = h * w) (hv : ∀ p ∈ ps, valid_pixel p)
    (htoks : toks.map Prod.snd = h :: w :: channels ps)
    (hs : well_separated toks) (ht : starts_clean tail)
    (hm1 : malloc heap SIZEOF_IMAGE = true)
    (hm2 : malloc heap (pixel_bytes h w) = true) :
    load_image heap (some (MAGIC ++ (render toks ++ tail))) = .ok ⟨h, w, some ps⟩ := by
  match toks, htoks, hs with
  | [], htoks, _ => simp at htoks
  | [_], htoks, _ => simp at htoks
  | th :: tw :: rest, htoks, hs =>
    simp only [List.map_cons, List.cons.injEq] at htoks
    obtain ⟨rfl, rfl, hrest⟩ := htoks
    have := load_image_render heap [] tail th tw rest [] ps hm1 hm2 (by simp)
      (by simpa using hs) hrest h0 w0 hfit hlen hv ht
    simpa using this

/-- C3, witness: the text `HPDEC\n1 1\n10 20 30\n` yields the 1 by 1 grid with
the pixel (10,20,30). -/
theorem C3_well_formed_decode_witness :
    load_image ample_heap (some "HPDEC\n1 1\n10 20 30\n".toList) =
      .ok ⟨1, 1, some [⟨10, 20, 30⟩]⟩ :=
  C3_well_formed_decode ample_heap 1 1 [⟨10, 20, 30⟩]
    [(['\n'], 1), ([' '], 1), (['\n'], 10), ([' '], 20), ([' '], 30)] ['\n']
    (by decide) (by decide) (by decide) (by decide) (by decide) (by decide) (by decide)
    (by decide) (by decide) (by decide)

/-- C3, counterexample: for `h = w = 65536` and `2^32` black pixels the text
is well formed, but the loop bound `height * width` of `load_image` wraps to
0 and the returned grid has no pixel. -/
theorem C3_well_formed_decode_counterexample :
    ((List.replicate huge_count (⟨0, 0, 0⟩ : Pixel)).length : Int) = 65536 * 65536 ∧
      (∀ p ∈ List.replicate huge_count (⟨0, 0, 0⟩ : Pixel), valid_pixel p) ∧
      ((['\n'], (65536 : Int)) :: ([' '], (65536 : Int)) ::
          pixel_tokens (List.replicate huge_count ⟨0, 0, 0⟩)).map Prod.snd =
        65536 :: 65536 :: channels (List.replicate huge_count ⟨0, 0, 0⟩) ∧
      well_separated ((['\n'], (65536 : Int)) :: ([' '], (65536 : Int)) ::
          pixel_tokens (List.replicate huge_count ⟨0, 0, 0⟩)) ∧
      load_image ample_heap (some (MAGIC ++ (render ((['\n'], (65536 : Int)) ::
          ([' '], (65536 : Int)) :: pixel_tokens (List.replicate huge_count ⟨0, 0, 0⟩)) ++
            ['\n']))) = .ok ⟨65536, 65536, some []⟩ ∧
      Loaded.ok ⟨65536, 65536, some []⟩ ≠
        Loaded.ok ⟨65536, 65536, some (List.replicate huge_count ⟨0, 0, 0⟩)⟩ := by
  have hsep : well_separated ((['\n'], (65536 : Int)) :: ([' '], (65536 : Int)) ::
      pixel_tokens (List.replicate huge_count ⟨0, 0, 0⟩)) := by
    rw [well_separated_cons, well_separated_cons]
    exact ⟨by decide, by decide, pixel_tokens_separated _⟩
  refine ⟨valid_grid_huge.2.2.1, valid_grid_huge.2.2.2, ?_, hsep, ?_, huge_grid_ne_empty⟩
  · simp only [List.map_cons, pixel_tokens_channels]
  · have := load_image_header ample_heap [] ['\n'] (['\n'], 65536) ([' '], 65536)
      (pixel_tokens (List.replicate huge_count ⟨0, 0, 0⟩)) (by decide) (by decide)
      (by simp) hsep (by decide) (by decide) (by decide) (by decide) (by decide)
    simp only [List.nil_append] at this
    rw [this]
    simp only [wrap_int_huge, read_pixels]

/-! ## C9: the text written by `save_image` -/

/-- The format of the text that `save_image` hands to the stream: for every
grid with a pixel sequence of exactly `height * width` pixels and
`height * width ≤ INT_MAX`, a call that returns `true` has handed to the
stream exactly `HPDEC\n`, then `<height> <width>\n` in decimal, then one line
`<red> <green> <blue>\n` for each pixel in order, which are
`2 + height * width` lines; the file holds that text when the flush of
`fclose` succeeds, and only its first `kept` characters otherwise; the call
returns `true` with the whole text in the file when the destination opens and
accepts every write. -/
theorem save_image_format (sink : Sink) (g : Image) (ps : List Pixel) (name : Option String)
    (hps : g.pixels = some ps) (hlen : (ps.length : Int) = g.height * g.width)
    (hfit : g.height * g.width ≤ INT_MAX) :
    (∀ f, save_image sink (some g) name = .ret ⟨true, f⟩ →
        f = some (if sink.accepts (ps.length + 1) then
            MAGIC ++ '\n' :: (print_int g.height ++ ' ' :: (print_int g.width ++
              '\n' :: pixels_text ps))
          else (MAGIC ++ '\n' :: (print_int g.height ++ ' ' :: (print_int g.width ++
              '\n' :: pixels_text ps))).take sink.kept)) ∧
      (sink.opens = true → (∀ k, sink.accepts k = true) → ∀ nm : String,
        save_image sink (some g) (some nm) = .ret ⟨true, some (MAGIC ++ '\n' ::
          (print_int g.height ++ ' ' :: (print_int g.width ++ '\n' :: pixels_text ps)))⟩) ∧
      (line_count (MAGIC ++ '\n' :: (print_int g.height ++ ' ' :: (print_int g.width ++
          '\n' :: pixels_text ps))) : Int) = 2 + g.height * g.width := by
  have hcount : (wrap_int (g.height * g.width)).toNat = ps.length := by
    have hi : is_int (g.height * g.width) := by
      unfold is_int INT_MIN
      omega
    rw [wrap_int_of_is_int hi, ← hlen]
    simp
  have htext : MAGIC ++ '\n' :: (print_int g.height ++ ' ' :: (print_int g.width ++
      '\n' :: pixels_text ps)) = header_text g.height g.width ++ pixels_text ps := by
    simp [header_text, MAGIC]
  rw [htext]
  refine ⟨?_, ?_, ?_⟩
  · intro f hf
    have := (save_image_success sink g ps name f hps hf).2
    rw [this, hcount, List.take_length]
    rfl
  · intro ho ha nm
    rw [save_image_good sink g ps nm hps ho ha (by omega), hcount, List.take_length]
  · rw [line_count_append, line_count_header, line_count_pixels_text, ← hlen]
    push_cast
    ring

/-- C9 (defect): `save_image` does not look at the value that `fclose`
returns.  For the 1 by 2 grid with the pixels (0,0,0) and (255,1,2) and a
destination where the three calls of `fprintf` succeed and the flush of
`fclose` fails with nothing in the file, it returns `true` and the file is
empty: it does not hold the four lines `HPDEC\n1 2\n0 0 0\n255 1 2\n`. -/
theorem C9_close_unchecked :
    save_image full_sink (some ⟨1, 2, some [⟨0, 0, 0⟩, ⟨255, 1, 2⟩]⟩) (some "out") =
        .ret ⟨true, some []⟩ ∧
      MAGIC ++ '\n' :: (print_int 1 ++ ' ' :: (print_int 2 ++ '\n' ::
          pixels_text [⟨0, 0, 0⟩, ⟨255, 1, 2⟩])) = "HPDEC\n1 2\n0 0 0\n255 1 2\n".toList ∧
      line_count "HPDEC\n1 2\n0 0 0\n255 1 2\n".toList = 2 + 1 * 2 ∧
      line_count [] = 0 := by
  decide

/-! ## C8: the invariant of decoded grids -/

/-- C8 (defect): on the text `HPDEC\n3 1431655766\n1 2 3\n4 5 6\n` the
product `height * width = 2^32 + 2` wraps to 2, `load_image` succeeds after
two records and returns a grid of height 3 and width 1431655766 that holds two
pixels: the data-model invariant does not hold for it. -/
theorem C8_decoded_grid_overflow :
    load_image ample_heap (some "HPDEC\n3 1431655766\n1 2 3\n4 5 6\n".toList) =
        .ok ⟨3, 1431655766, some [⟨1, 2, 3⟩, ⟨4, 5, 6⟩]⟩ ∧
      ¬ valid_grid ⟨3, 1431655766, some [⟨1, 2, 3⟩, ⟨4, 5, 6⟩]⟩ := by
  decide

/-! ## C2: the magic token -/

/-- C2 (amended): `load_image` fails with the invalid file format error
exactly when the first five characters of the first white-space-delimited
token are not `HPDEC` (case-sensitive; the whole token when it is shorter,
nothing when the input holds no token), regardless of what follows; a first
token that merely starts with `HPDEC`, such as `HPDEC1`, passes the check. -/
theorem C2_magic_check (heap : Nat → Bool) (f : List Char)
    (hm1 : malloc heap SIZEOF_IMAGE = true) :
    load_image heap (some f) = .error .invalid_file_format ↔
      (first_token f).take 5 ≠ MAGIC := by
  unfold load_image MAGIC
  simp only [hm1, Bool.not_true, Bool.false_eq_true, if_false]
  rcases scan_s5_item f with ⟨hnone, hempty⟩ | ⟨rest, hsome⟩
  · simp [hnone, hempty]
  · simp only [hsome]
    by_cases hfmt : (first_token f).take 5 = ['H', 'P', 'D', 'E', 'C']
    · simp only [hfmt, ne_eq, not_true_eq_false, if_false, iff_false]
      repeat' split
      all_goals simp
    · simp [hfmt]

/-- C2, witness: a lower-case magic is rejected. -/
theorem C2_magic_check_witness :
    load_image ample_heap (some "hpdec\n1 1\n10 20 30\n".toList) =
      .error .invalid_file_format :=
  (C2_magic_check ample_heap "hpdec\n1 1\n10 20 30\n".toList (by decide)).2 (by decide)

/-- C2, counterexample: the first token of `HPDEC1 1\n10 20 30\n` is `HPDEC1`,
not `HPDEC`, and `load_image` succeeds: `%5s` reads `HPDEC` and the `1` that
follows is read as the height. -/
theorem C2_magic_check_counterexample :
    first_token "HPDEC1 1\n10 20 30\n".toList = "HPDEC1".toList ∧
      first_token "HPDEC1 1\n10 20 30\n".toList ≠ MAGIC ∧
      load_image ample_heap (some "HPDEC1 1\n10 20 30\n".toList) =
        .ok ⟨1, 1, some [⟨10, 20, 30⟩]⟩ := by
  decide

/-! ## C4: the dimensions -/

/-- C4 (amended): for every input whose first token is `HPDEC`, `load_image`
fails with the invalid dimensions error when the next token is missing or does
not begin with an optionally signed decimal integer, or when it is a decimal
integer and the token after it is missing or does not begin with one, or when
both are decimal integers representable as `int` and the height or the width
is at most 0. -/
theorem C4_dimension_validation (heap : Nat → Bool) (f : List Char)
    (hm1 : malloc heap SIZEOF_IMAGE = true) (hmagic : first_token f = MAGIC)
    (hbad : begins_with_integer (nth_token f 1) = false ∨
      (is_integer_token (nth_token f 1) = true ∧
        begins_with_integer (nth_token f 2) = false) ∨
      (is_integer_token (nth_token f 1) = true ∧ is_integer_token (nth_token f 2) = true ∧
        is_int (token_value (nth_token f 1)) ∧ is_int (token_value (nth_token f 2)) ∧
        (token_value (nth_token f 1) ≤ 0 ∨ token_value (nth_token f 2) ≤ 0))) :
    load_image heap (some f) = .error .invalid_dimensions := by
  have hmagic2 : ¬ (MAGIC ≠ ['H', 'P', 'D', 'E', 'C']) := by simp [MAGIC]
  rcases hbad with h1 | ⟨h1, h2⟩ | ⟨h1, h2, i1, i2, hle⟩
  · have : scan_d (after_first_token f) = none := scan_d_none_of_no_integer _ h1
    simp [load_image, hm1, scan_s5_of_first_token f hmagic, hmagic2, fscanf_d_d, this]
  · have a := scan_d_of_integer_token (after_first_token f) h1
    have b : scan_d (after_first_token (after_first_token f)) = none :=
      scan_d_none_of_no_integer _ h2
    simp [load_image, hm1, scan_s5_of_first_token f hmagic, hmagic2, fscanf_d_d, a,
      scan_d_skip_ws, b]
  · rw [load_image_tokens heap f hm1 hmagic h1 h2, store_int_of_is_int i1,
      store_int_of_is_int i2]
    simp [hle]

/-- C4, witness: the three inputs `HPDEC\n0 5\n`, `HPDEC\n5 -1\n` and
`HPDEC\nX Y\n` fail with the invalid dimensions error. -/
theorem C4_dimension_validation_witness :
    load_image ample_heap (some "HPDEC\n0 5\n1 2 3\n".toList) = .error .invalid_dimensions ∧
      load_image ample_heap (some "HPDEC\n5 -1\n1 2 3\n".toList) =
        .error .invalid_dimensions ∧
      load_image ample_heap (some "HPDEC\nX Y\n".toList) = .error .invalid_dimensions :=
  ⟨C4_dimension_validation ample_heap "HPDEC\n0 5\n1 2 3\n".toList (by decide) (by decide)
      (by decide),
    C4_dimension_validation ample_heap "HPDEC\n5 -1\n1 2 3\n".toList (by decide) (by decide)
      (by decide),
    C4_dimension_validation ample_heap "HPDEC\nX Y\n".toList (by decide) (by decide)
      (by decide)⟩

/-- C4, counterexample: in `HPDEC\n1+1\n0 0 0\n` the token after `HPDEC` is
`1+1`, which is not an integer, but `%d %d` reads it as 1 and +1 and
`load_image` returns a 1 by 1 grid. -/
theorem C4_dimension_validation_counterexample :
    first_token "HPDEC\n1+1\n0 0 0\n".toList = MAGIC ∧
      nth_token "HPDEC\n1+1\n0 0 0\n".toList 1 = "1+1".toList ∧
      is_integer_token (nth_token "HPDEC\n1+1\n0 0 0\n".toList 1) = false ∧
      load_image ample_heap (some "HPDEC\n1+1\n0 0 0\n".toList) =
        .ok ⟨1, 1, some [⟨0, 0, 0⟩]⟩ := by
  decide

/-! ## C5: the range of the channels -/

/-- C5 (amended): for every input whose first three tokens are `HPDEC` and two
decimal integers `h > 0` and `w > 0` with `h * w ≤ INT_MAX`, if the channel
token number `j < 3 * h * w` and the channel tokens before it are decimal
integers and its value, representable as `int`, is less than 0 or greater than
255, then `load_image` fails with the invalid pixel data error; and a text
whose `h * w` records have all their channels equal to 0 or to 255 is
accepted. -/
theorem C5_pixel_range (heap : Nat → Bool) (f : List Char) (h w : Int) (j : Nat)
    (hm1 : malloc heap SIZEOF_IMAGE = true) (hm2 : malloc heap (pixel_bytes h w) = true)
    (h0 : 0 < h) (w0 : 0 < w) (hfit : h * w ≤ INT_MAX)
    (hmagic : first_token f = MAGIC)
    (hth : is_integer_token (nth_token f 1) = true)
    (htw : is_integer_token (nth_token f 2) = true)
    (hh : token_value (nth_token f 1) = h) (hw : token_value (nth_token f 2) = w)
    (hj : (j : Int) < 3 * (h * w))
    (hint : ∀ i ≤ j, is_integer_token (nth_token f (i + 3)) = true)
    (hrep : is_int (token_value (nth_token f (j + 3))))
    (hbad : token_value (nth_token f (j + 3)) < 0 ∨ 255 < token_value (nth_token f (j + 3))) :
    load_image heap (some f) = .error .invalid_pixel_data ∧
      ∀ (ps : List Pixel) (toks : List (List Char × Int)) (tail : List Char),
        (ps.length : Int) = h * w →
        (∀ p ∈ ps, (p.red = 0 ∨ p.red = 255) ∧ (p.green = 0 ∨ p.green = 255) ∧
          (p.blue = 0 ∨ p.blue = 255)) →
        toks.map Prod.snd = h :: w :: channels ps → well_separated toks →
        starts_clean tail →
        load_image heap (some (MAGIC ++ (render toks ++ tail))) = .ok ⟨h, w, some ps⟩ := by
  obtain ⟨ih, iw⟩ := is_int_of_product h0 w0 hfit
  constructor
  · rw [load_image_tokens heap f hm1 hmagic hth htw, hh, hw, store_int_of_is_int ih,
      store_int_of_is_int iw, wrap_int_product h0 w0 hfit]
    have hdim : ¬ (h ≤ 0 ∨ w ≤ 0) := by omega
    have hn : ((h * w).toNat : Int) = h * w :=
      Int.toNat_of_nonneg (le_of_lt (Int.mul_pos h0 w0))
    have hread := read_pixels_none_of_bad (h * w).toNat (drop_tokens 3 f) j (by omega)
      hint (by rw [nth_token_add_three, store_int_of_is_int hrep]; omega)
    simp only [hdim, if_false, hm2, Bool.not_true, Bool.false_eq_true, hread]
  · intro ps toks tail hlen hv htoks hs ht
    match toks, htoks, hs with
    | [], htoks, _ => simp at htoks
    | [_], htoks, _ => simp at htoks
    | th :: tw :: rest, htoks, hs =>
      simp only [List.map_cons, List.cons.injEq] at htoks
      obtain ⟨rfl, rfl, hrest⟩ := htoks
      have hvalid : ∀ p ∈ ps, valid_pixel p := by
        intro p hp
        obtain ⟨a, b, c⟩ := hv p hp
        unfold valid_pixel
        omega
      have := load_image_render heap [] tail th tw rest [] ps hm1 hm2 (by simp)
        (by simpa using hs) hrest h0 w0 hfit hlen hvalid ht
      simpa using this

/-- C5, witness: a record with the channel 256 is rejected, the records
(0,0,0) and (255,255,255) are accepted. -/
theorem C5_pixel_range_witness :
    load_image ample_heap (some "HPDEC\n1 2\n0 0 0\n255 256 255\n".toList) =
        .error .invalid_pixel_data ∧
      load_image ample_heap (some "HPDEC\n1 2\n0 0 0\n255 255 255\n".toList) =
        .ok ⟨1, 2, some [⟨0, 0, 0⟩, ⟨255, 255, 255⟩]⟩ :=
  have key := C5_pixel_range ample_heap "HPDEC\n1 2\n0 0 0\n255 256 255\n".toList 1 2 4
    (by decide) (by decide) (by decide) (by decide) (by decide) (by decide) (by decide)
    (by decide) (by decide) (by decide) (by decide) (by decide) (by decide) (by decide)
  ⟨key.1, key.2 [⟨0, 0, 0⟩, ⟨255, 255, 255⟩]
    [(['\n'], 1), ([' '], 2), (['\n'], 0), ([' '], 0), ([' '], 0), (['\n'], 255),
      ([' '], 255), ([' '], 255)] ['\n'] (by decide) (by decide) (by decide) (by decide)
    (by decide)⟩

/-- C5, counterexample: in `HPDEC\n3 1431655766\n0 0 0\n0 0 0\n256 0 0\n` the
header is valid, the dimensions are positive and the third record has the
channel 256, but `height * width` wraps to 2, the third record is never read
and `load_image` succeeds.  In `HPDEC\n2147483648 1\n256 0 0\n` the height is
positive but is not an `int`, and the error is invalid dimensions instead of
invalid pixel data. -/
theorem C5_pixel_range_counterexample :
    first_token "HPDEC\n3 1431655766\n0 0 0\n0 0 0\n256 0 0\n".toList = MAGIC ∧
      token_value (nth_token "HPDEC\n3 1431655766\n0 0 0\n0 0 0\n256 0 0\n".toList 1) = 3 ∧
      token_value (nth_token "HPDEC\n3 1431655766\n0 0 0\n0 0 0\n256 0 0\n".toList 2) =
        1431655766 ∧
      (∀ i ≤ 6, is_integer_token
        (nth_token "HPDEC\n3 1431655766\n0 0 0\n0 0 0\n256 0 0\n".toList (i + 3)) = true) ∧
      token_value (nth_token "HPDEC\n3 1431655766\n0 0 0\n0 0 0\n256 0 0\n".toList 9) = 256 ∧
      load_image ample_heap (some "HPDEC\n3 1431655766\n0 0 0\n0 0 0\n256 0 0\n".toList) =
        .ok ⟨3, 1431655766, some [⟨0, 0, 0⟩, ⟨0, 0, 0⟩]⟩ ∧
      token_value (nth_token "HPDEC\n2147483648 1\n256 0 0\n".toList 1) = 2147483648 ∧
      token_value (nth_token "HPDEC\n2147483648 1\n256 0 0\n".toList 3) = 256 ∧
      load_image ample_heap (some "HPDEC\n2147483648 1\n256 0 0\n".toList) =
        .error .invalid_dimensions := by
  refine ⟨by decide, by decide, by decide, ?_, by decide, by decide, by decide, by decide,
    by decide⟩
  intro i hi
  interval_cases i <;> decide

/-! ## C6: malformed or missing pixel records -/

/-- C6 (amended): for every input whose first three tokens are `HPDEC` and two
decimal integers `h > 0` and `w > 0` with `h * w ≤ INT_MAX`, if among the
first `3 * h * w` channel tokens the first one that is not a decimal integer
is missing (the input ends before `h * w` complete records) or does not begin
with an optionally signed decimal integer, then `load_image` fails with the
invalid pixel data error and returns no grid. -/
theorem C6_malformed_records (heap : Nat → Bool) (f : List Char) (h w : Int) (j : Nat)
    (hm1 : malloc heap SIZEOF_IMAGE = true) (hm2 : malloc heap (pixel_bytes h w) = true)
    (h0 : 0 < h) (w0 : 0 < w) (hfit : h * w ≤ INT_MAX)
    (hmagic : first_token f = MAGIC)
    (hth : is_integer_token (nth_token f 1) = true)
    (htw : is_integer_token (nth_token f 2) = true)
    (hh : token_value (nth_token f 1) = h) (hw : token_value (nth_token f 2) = w)
    (hj : (j : Int) < 3 * (h * w))
    (hint : ∀ i < j, is_integer_token (nth_token f (i + 3)) = true)
    (hbad : begins_with_integer (nth_token f (j + 3)) = false) :
    load_image heap (some f) = .error .invalid_pixel_data := by
  obtain ⟨ih, iw⟩ := is_int_of_product h0 w0 hfit
  rw [load_image_tokens heap f hm1 hmagic hth htw, hh, hw, store_int_of_is_int ih,
    store_int_of_is_int iw, wrap_int_product h0 w0 hfit]
  have hdim : ¬ (h ≤ 0 ∨ w ≤ 0) := by omega
  have hn : ((h * w).toNat : Int) = h * w :=
    Int.toNat_of_nonneg (le_of_lt (Int.mul_pos h0 w0))
  have hread := read_pixels_none_of_missing (h * w).toNat (drop_tokens 3 f) j (by omega)
    hint hbad
  simp only [hdim, if_false, hm2, Bool.not_true, Bool.false_eq_true, hread]

/-- C6, witness: an input that ends in the middle of the second record, and an
input with the channel token `x`, fail with the invalid pixel data error. -/
theorem C6_malformed_records_witness :
    load_image ample_heap (some "HPDEC\n1 2\n1 2 3\n4 5\n".toList) =
        .error .invalid_pixel_data ∧
      load_image ample_heap (some "HPDEC\n1 1\n1 x 3\n".toList) = .error .invalid_pixel_data :=
  ⟨C6_malformed_records ample_heap "HPDEC\n1 2\n1 2 3\n4 5\n".toList 1 2 5
      (by decide) (by decide) (by decide) (by decide) (by decide) (by decide) (by decide)
      (by decide) (by decide) (by decide) (by decide)
      (fun i hi => by interval_cases i <;> decide) (by decide),
    C6_malformed_records ample_heap "HPDEC\n1 1\n1 x 3\n".toList 1 1 1
      (by decide) (by decide) (by decide) (by decide) (by decide) (by decide) (by decide)
      (by decide) (by decide) (by decide) (by decide)
      (fun i hi => by interval_cases i; decide) (by decide)⟩

/-- C6, counterexample: in `HPDEC\n1 1\n1 2 3abc\n` the third channel token
`3abc` is not an integer, but `%d` reads the 3 and stops, and `load_image`
returns the 1 by 1 grid with the pixel (1,2,3). -/
theorem C6_malformed_records_counterexample :
    first_token "HPDEC\n1 1\n1 2 3abc\n".toList = MAGIC ∧
      token_value (nth_token "HPDEC\n1 1\n1 2 3abc\n".toList 1) = 1 ∧
      token_value (nth_token "HPDEC\n1 1\n1 2 3abc\n".toList 2) = 1 ∧
      nth_token "HPDEC\n1 1\n1 2 3abc\n".toList 5 = "3abc".toList ∧
      is_integer_token (nth_token "HPDEC\n1 1\n1 2 3abc\n".toList 5) = false ∧
      load_image ample_heap (some "HPDEC\n1 1\n1 2 3abc\n".toList) =
        .ok ⟨1, 1, some [⟨1, 2, 3⟩]⟩ := by
  decide

/-! ## C7: trailing content -/

/-- C7: for every input on which `load_image` succeeds with a grid `g`, and
for every text `t`, `load_image` applied to that input followed by a white
space character and then `t` also succeeds and returns the same grid `g`. -/
theorem C7_trailing_content (heap : Nat → Bool) (f : List Char) (g : Image)
    (c : Char) (t : List Char) (hc : isspace c = true)
    (h : load_image heap (some f) = .ok g) :
    load_image heap (some (f ++ c :: t)) = .ok g := by
  unfold load_image at h ⊢
  simp only at h ⊢
  cases hm : malloc heap SIZEOF_IMAGE with
  | false => simp [hm] at h
  | true =>
    simp only [hm, Bool.not_true, Bool.false_eq_true, if_false] at h ⊢
    cases h5 : scan_s5 f with
    | none => simp [h5] at h
    | some x =>
      obtain ⟨w, f1⟩ := x
      rw [scan_s5_append f c t hc w f1 h5]
      simp only [h5] at h ⊢
      by_cases hw : w ≠ ['H', 'P', 'D', 'E', 'C']
      · simp [hw] at h
      · simp only [hw, if_false] at h ⊢
        cases hd : fscanf_d_d f1 with
        | none => simp [hd] at h
        | some y =>
          obtain ⟨hh, ww, f2⟩ := y
          rw [fscanf_d_d_append f1 c t hc hh ww f2 hd]
          simp only [hd] at h ⊢
          by_cases hdim : hh ≤ 0 ∨ ww ≤ 0
          · simp [hdim] at h
          · simp only [hdim, if_false] at h ⊢
            cases hm2 : malloc heap (pixel_bytes hh ww) with
            | false => simp [hm2] at h
            | true =>
              simp only [hm2, Bool.not_true, Bool.false_eq_true, if_false] at h ⊢
              cases hr : read_pixels (wrap_int (hh * ww)).toNat f2 with
              | none => simp [hr] at h
              | some z =>
                obtain ⟨ps, r⟩ := z
                rw [read_pixels_append c t hc _ f2 r ps hr]
                simpa [hr] using h

/-- C7, witness: the text `HPDEC\n1 1\n10 20 30` followed by a new line and
more text decodes to the same grid. -/
theorem C7_trailing_content_witness :
    load_image ample_heap (some "HPDEC\n1 1\n10 20 30".toList) =
        .ok ⟨1, 1, some [⟨10, 20, 30⟩]⟩ ∧
      load_image ample_heap (some ("HPDEC\n1 1\n10 20 30".toList ++ '\n' :: "40 x".toList)) =
        .ok ⟨1, 1, some [⟨10, 20, 30⟩]⟩ :=
  ⟨by decide,
    C7_trailing_content ample_heap "HPDEC\n1 1\n10 20 30".toList ⟨1, 1, some [⟨10, 20, 30⟩]⟩
      '\n' "40 x".toList (by decide) (by decide)⟩

/-! ## C10: the bounds of the noise transform -/

/-- C10: for every grid (an image whose buffer holds the pixels that its
dimensions announce), every strength `s ≥ 0` and every sequence of random
draws, `apply_NOISE` returns a grid, when the copy can be allocated, and every
red, green and blue value of that grid lies in `[0, 255]`. -/
theorem C10_noise_bounds (heap : Nat → Bool) (rand : Nat → Nat) (k0 : Nat) (g : Image)
    (ps : List Pixel) (strength : Int) (hps : g.pixels = some ps)
    (hbuf : (wrap_int (g.height * g.width)).toNat ≤ ps.length)
    (hs : 0 ≤ strength)
    (hm1 : malloc heap SIZEOF_IMAGE = true)
    (hm2 : malloc heap (pixel_bytes g.height g.width) = true) :
    ∃ (r : Image) (qs : List Pixel) (k1 : Nat),
      apply_NOISE heap rand k0 (some g) strength = .ret (some r, k1) ∧
        r.pixels = some qs ∧ ∀ p ∈ qs, valid_pixel p :=
  ⟨_, _, _, apply_NOISE_spec heap rand k0 g ps strength hps hbuf hs hm1 hm2, rfl,
    noise_from_valid rand strength _ k0⟩

/-- C10, witness: strength 5 on the 1 by 2 grid with the pixels (0,0,0) and
(255,1,2), for the draws 3, 10, 17, ... -/
theorem C10_noise_bounds_witness :
    ∃ (r : Image) (qs : List Pixel) (k1 : Nat),
      apply_NOISE ample_heap (fun k => 7 * k + 3) 0
          (some ⟨1, 2, some [⟨0, 0, 0⟩, ⟨255, 1, 2⟩]⟩) 5 = .ret (some r, k1) ∧
        r.pixels = some qs ∧ ∀ p ∈ qs, valid_pixel p :=
  C10_noise_bounds ample_heap (fun k => 7 * k + 3) 0 ⟨1, 2, some [⟨0, 0, 0⟩, ⟨255, 1, 2⟩]⟩
    [⟨0, 0, 0⟩, ⟨255, 1, 2⟩] 5 rfl (by decide) (by decide) (by decide) (by decide)

/-! ## C11: strength zero -/

/-- C11 (amended): for every valid grid (channels in `[0, 255]`) whose pixel
count `height * width` is at most `INT_MAX` and every sequence of random
draws, `apply_NOISE` with the strength 0 returns, when the copy can be
allocated, a grid with the same dimensions and the same pixels: every offset
is zero. -/
theorem C11_zero_strength (heap : Nat → Bool) (rand : Nat → Nat) (k0 : Nat) (g : Image)
    (hg : valid_grid g) (hfit : g.height * g.width ≤ INT_MAX)
    (hm1 : malloc heap SIZEOF_IMAGE = true)
    (hm2 : malloc heap (pixel_bytes g.height g.width) = true) :
    ∃ k1, apply_NOISE heap rand k0 (some g) 0 = .ret (some g, k1) := by
  obtain ⟨h, w, px⟩ := g
  obtain ⟨h0, w0, hpx⟩ := hg
  cases px with
  | none => exact absurd hpx (by simp)
  | some ps =>
    obtain ⟨hlen, hv⟩ := hpx
    simp only at hlen hfit hm2 h0 w0
    have hcount : (wrap_int (h * w)).toNat = ps.length := by
      rw [wrap_int_product h0 w0 hfit, ← hlen]
      simp
    refine ⟨k0 + 3 * ps.length, ?_⟩
    rw [apply_NOISE_spec heap rand k0 ⟨h, w, some ps⟩ ps 0 rfl (by simp only; omega)
      (le_refl _) hm1 hm2]
    simp only [hcount, List.take_length, noise_from_zero rand ps k0 hv]

/-- C11, witness: strength 0 on the 2 by 1 grid with the pixels (0,0,0) and
(255,1,2). -/
theorem C11_zero_strength_witness :
    valid_grid sample_grid ∧
      ∃ k1, apply_NOISE ample_heap (fun k => 7 * k + 3) 0 (some sample_grid) 0 =
        .ret (some sample_grid, k1) :=
  ⟨by decide,
    C11_zero_strength ample_heap (fun k => 7 * k + 3) 0 sample_grid (by decide) (by decide)
      (by decide) (by decide)⟩

/-- C11, counterexample: the grid of 65536 by 65536 black pixels is valid, but
`height * width` wraps to 0: the copy holds no pixel, so the returned grid is
not pixel-for-pixel the source. -/
theorem C11_zero_strength_counterexample :
    valid_grid huge_grid ∧
      apply_NOISE ample_heap (fun _ => 0) 0 (some huge_grid) 0 =
        .ret (some ⟨65536, 65536, some []⟩, 0) ∧
      (⟨65536, 65536, some []⟩ : Image) ≠ huge_grid := by
  refine ⟨valid_grid_huge, ?_, ?_⟩
  · have h := apply_NOISE_spec ample_heap (fun _ => 0) 0 huge_grid _ 0 rfl
      (by show (wrap_int (65536 * 65536)).toNat ≤ _; rw [wrap_int_huge]; exact Nat.zero_le _)
      (le_refl _) (by decide) (by decide)
    rw [h]
    show Run.ret (some (Image.mk 65536 65536 (some (noise_from (fun _ => 0) 0 0
      (List.take (wrap_int (65536 * 65536)).toNat _)))), 0 + 3 * (wrap_int (65536 * 65536)).toNat)
      = _
    rw [wrap_int_huge, List.take_zero]
    rfl
  · intro h
    exact huge_grid_ne_empty (congrArg Loaded.ok h)

/-! ## C12: the reference definition of the noise -/

/-- The transform of the claims, as long as `2 * strength + 1` and the pixel
count are `int`s: for every valid grid with `height * width ≤ INT_MAX`, every
strength `0 ≤ s ≤ 1073741823` and every draws, the pixel number `i` of the
returned grid is the pixel of the claims for the draws made by this call, and
each of its channels differs from the channel of the source by at most `s`. -/
theorem apply_NOISE_reference (heap : Nat → Bool) (rand : Nat → Nat) (k0 : Nat) (g : Image)
    (strength : Int) (hg : valid_grid g) (hfit : g.height * g.width ≤ INT_MAX)
    (h0 : 0 ≤ strength) (h1 : strength ≤ 1073741823)
    (hm1 : malloc heap SIZEOF_IMAGE = true)
    (hm2 : malloc heap (pixel_bytes g.height g.width) = true) :
    ∃ (qs : List Pixel) (k1 : Nat),
      apply_NOISE heap rand k0 (some g) strength =
        .ret (some ⟨g.height, g.width, some qs⟩, k1) ∧
      ∀ (i : Nat) (p : Pixel), g.pixels.bind (fun ps => ps[i]?) = some p →
        qs[i]? = some (spec_pixel (fun j => rand (k0 + j)) strength i p) ∧
        |(spec_pixel (fun j => rand (k0 + j)) strength i p).red - p.red| ≤ strength ∧
        |(spec_pixel (fun j => rand (k0 + j)) strength i p).green - p.green| ≤ strength ∧
        |(spec_pixel (fun j => rand (k0 + j)) strength i p).blue - p.blue| ≤ strength := by
  obtain ⟨h, w, px⟩ := g
  obtain ⟨hh, ww, hpx⟩ := hg
  cases px with
  | none => exact absurd hpx (by simp)
  | some ps =>
    obtain ⟨hlen, hv⟩ := hpx
    simp only at hlen hfit hm2 hh ww
    have hcount : (wrap_int (h * w)).toNat = ps.length := by
      rw [wrap_int_product hh ww hfit, ← hlen]
      simp
    refine ⟨_, _, apply_NOISE_spec heap rand k0 ⟨h, w, some ps⟩ ps strength rfl
      (by simp only; omega) h0 hm1 hm2, ?_⟩
    intro i p hp
    simp only [Option.bind_eq_bind, Option.some_bind] at hp
    simp only [hcount, List.take_length]
    obtain ⟨a, b, c, d, e, f⟩ := hv p (List.getElem?_mem hp)
    have r := noise_channel_spec p.red (rand (k0 + 3 * i)) strength a b h0 h1
    have gch := noise_channel_spec p.green (rand (k0 + (3 * i + 1))) strength c d h0 h1
    have bch := noise_channel_spec p.blue (rand (k0 + (3 * i + 2))) strength e f h0 h1
    refine ⟨?_, r.2, ?_, ?_⟩
    · rw [noise_from_getElem rand strength ps k0 i p hp]
      simp only [noise_pixel, spec_pixel, r.1, gch.1, bch.1, Nat.add_assoc]
    · exact gch.2
    · exact bch.2

/-- C12 (defect): for the strength 1610612736 the `int` expression
`2 * strength + 1` wraps to -1073741823.  On the 1 by 1 grid with the pixel
(100,100,100) and draws all equal to 1610612736, `apply_NOISE` returns the
pixel (0,0,0), whereas the offset of the claim is 0 and its pixel is
(100,100,100). -/
theorem C12_noise_overflow :
    valid_grid ⟨1, 1, some [⟨100, 100, 100⟩]⟩ ∧
      apply_NOISE ample_heap (fun _ => 1610612736) 0 (some ⟨1, 1, some [⟨100, 100, 100⟩]⟩)
          1610612736 = .ret (some ⟨1, 1, some [⟨0, 0, 0⟩]⟩, 3) ∧
      spec_offset 1610612736 1610612736 = 0 ∧
      spec_pixel (fun _ => 1610612736) 1610612736 0 ⟨100, 100, 100⟩ = ⟨100, 100, 100⟩ ∧
      noise 1610612736 1610612736 = -1073741823 := by
  decide

/-! ## C15: the counters of the histogram -/

/-- C15 (amended): for every valid grid whose pixel count `height * width` is
at most `INT_MAX` and every value `v` in 0..255, the counter that `apply_HIST`
computes and reports for `v` is the number of (pixel, channel) pairs of the
grid whose channel value is `v`, red, green and blue alike. -/
theorem C15_histogram_counts (g : Image) (ps : List Pixel) (hps : g.pixels = some ps)
    (hg : valid_grid g) (hfit : g.height * g.width ≤ INT_MAX) :
    ∃ hist, histogram g.height g.width ps = .ret hist ∧
      apply_HIST (some g) = .ret (true, report_text hist) ∧
      ∀ v : Nat, v ≤ 255 → hist v = occurrences (v : Int) ps := by
  obtain ⟨h0, w0, hpx⟩ := hg
  rw [hps] at hpx
  obtain ⟨hlen, hv⟩ := hpx
  have hcount : (wrap_int (g.height * g.width)).toNat = ps.length := by
    rw [wrap_int_product h0 w0 hfit, ← hlen]
    simp
  obtain ⟨hist, h1, h2, h3⟩ := apply_HIST_spec g ps hps hv (by omega)
  refine ⟨hist, h1, h2, fun v _ => ?_⟩
  rw [h3 v, hcount, List.take_length]

/-- C15, witness: for the 2 by 1 grid with the pixels (0,0,0) and (255,1,2)
the counters are 3 at the value 0, 1 at each of 1, 2 and 255, and 0 at every
other value. -/
theorem C15_histogram_counts_witness :
    ∃ hist, histogram 2 1 [⟨0, 0, 0⟩, ⟨255, 1, 2⟩] = .ret hist ∧
      apply_HIST (some sample_grid) = .ret (true, report_text hist) ∧
      hist 0 = 3 ∧ hist 1 = 1 ∧ hist 2 = 1 ∧ hist 255 = 1 ∧
      ∀ v : Nat, v ≤ 255 → v ≠ 0 → v ≠ 1 → v ≠ 2 → v ≠ 255 → hist v = 0 := by
  obtain ⟨hist, h1, h2, h3⟩ :=
    C15_histogram_counts sample_grid [⟨0, 0, 0⟩, ⟨255, 1, 2⟩] rfl (by decide) (by decide)
  refine ⟨hist, h1, h2, ?_, ?_, ?_, ?_, ?_⟩
  · rw [h3 0 (by omega)]; decide
  · rw [h3 1 (by omega)]; decide
  · rw [h3 2 (by omega)]; decide
  · rw [h3 255 (by omega)]; decide
  · intro v hv a b c d
    rw [h3 v hv]
    simp only [occurrences_cons, occurrences_nil]
    have e0 : ¬ ((0 : Int) = (v : Int)) := by omega
    have e1 : ¬ ((1 : Int) = (v : Int)) := by omega
    have e2 : ¬ ((2 : Int) = (v : Int)) := by omega
    have e3 : ¬ ((255 : Int) = (v : Int)) := by omega
    simp only [e0, e1, e2, e3, if_false]

/-- C15, counterexample: the grid of 65536 by 65536 black pixels is valid and
has `3 * 2^32` channels equal to 0, but `height * width` wraps to 0, the loop
visits no pixel and every counter is 0. -/
theorem C15_histogram_counts_counterexample :
    valid_grid huge_grid ∧
      histogram huge_grid.height huge_grid.width (List.replicate huge_count ⟨0, 0, 0⟩) =
        .ret (fun _ => 0) ∧
      apply_HIST (some huge_grid) = .ret (true, report_text (fun _ => 0)) ∧
      occurrences 0 (List.replicate huge_count (⟨0, 0, 0⟩ : Pixel)) = 3 * huge_count ∧
      (0 : Nat) ≠ 3 * huge_count := by
  have hrun : histogram huge_grid.height huge_grid.width
      (List.replicate huge_count ⟨0, 0, 0⟩) = .ret (fun _ => 0) := by
    show hist_loop _ (wrap_int (65536 * 65536)).toNat 0 (fun _ => 0) = _
    rw [wrap_int_huge]
    rfl
  refine ⟨valid_grid_huge, hrun, ?_, occurrences_replicate _, by decide⟩
  show (match histogram huge_grid.height huge_grid.width
      (List.replicate huge_count ⟨0, 0, 0⟩) with
    | .undefined => Run.undefined
    | .ret hist => Run.ret (true, print_hist hist 256 0)) = _
  rw [hrun]
  simp only [print_hist_report]

/-! ## C16: the total of the histogram -/

/-- C16 (amended): for every valid grid whose pixel count `height * width` is
at most `INT_MAX`, the counters that `apply_HIST` computes for the values 0 to
255 add up to `3 * height * width`. -/
theorem C16_histogram_total (g : Image) (ps : List Pixel) (hps : g.pixels = some ps)
    (hg : valid_grid g) (hfit : g.height * g.width ≤ INT_MAX) :
    ∃ hist, histogram g.height g.width ps = .ret hist ∧
      apply_HIST (some g) = .ret (true, report_text hist) ∧
      ((((List.range 256).map hist).sum : Nat) : Int) = 3 * g.height * g.width := by
  obtain ⟨h0, w0, hpx⟩ := hg
  rw [hps] at hpx
  obtain ⟨hlen, hv⟩ := hpx
  have hcount : (wrap_int (g.height * g.width)).toNat = ps.length := by
    rw [wrap_int_product h0 w0 hfit, ← hlen]
    simp
  obtain ⟨hist, h1, h2, h3⟩ := apply_HIST_spec g ps hps hv (by omega)
  refine ⟨hist, h1, h2, ?_⟩
  have hfun : hist = fun v : Nat => occurrences (v : Int) ps := by
    funext v
    rw [h3 v, hcount, List.take_length]
  rw [hfun, sum_occurrences ps hv]
  push_cast
  rw [hlen]
  ring

/-- C16, witness: the counters of the 2 by 1 grid with the pixels (0,0,0) and
(255,1,2) add up to 6. -/
theorem C16_histogram_total_witness :
    ∃ hist, histogram 2 1 [⟨0, 0, 0⟩, ⟨255, 1, 2⟩] = .ret hist ∧
      apply_HIST (some sample_grid) = .ret (true, report_text hist) ∧
      ((((List.range 256).map hist).sum : Nat) : Int) = 3 * 2 * 1 :=
  C16_histogram_total sample_grid [⟨0, 0, 0⟩, ⟨255, 1, 2⟩] rfl (by decide) (by decide)

/-- C16, counterexample: for the valid grid of 65536 by 65536 black pixels
every counter is 0, so the total is 0 and not `3 * 65536 * 65536`. -/
theorem C16_histogram_total_counterexample :
    valid_grid huge_grid ∧
      histogram huge_grid.height huge_grid.width (List.replicate huge_count ⟨0, 0, 0⟩) =
        .ret (fun _ => 0) ∧
      ((((List.range 256).map fun _ : Nat => (0 : Nat)).sum : Nat) : Int) = 0 ∧
      (0 : Int) ≠ 3 * huge_grid.height * huge_grid.width := by
  refine ⟨valid_grid_huge, ?_, ?_, by decide⟩
  · show hist_loop _ (wrap_int (65536 * 65536)).toNat 0 (fun _ => 0) = _
    rw [wrap_int_huge]
    rfl
  · rw [sum_map_zero]
    rfl

/-! ## C17: the report of the histogram -/

/-- C17: for every valid grid `apply_HIST` succeeds and writes exactly 256
lines, the line number `v` (from 0 to 255 in ascending order) being
`Value <v>: <count> pixels` with the counter that it has computed for `v`,
also when that counter is zero; for an absent grid and for a grid with an
absent pixel sequence it returns failure and writes nothing. -/
theorem C17_histogram_report (g : Image) (ps : List Pixel) (hps : g.pixels = some ps)
    (hg : valid_grid g) :
    (∃ hist, histogram g.height g.width ps = .ret hist ∧
        apply_HIST (some g) = .ret (true, report_text hist) ∧
        line_count (report_text hist) = 256) ∧
      apply_HIST none = .ret (false, []) ∧
      ∀ h w : Int, apply_HIST (some ⟨h, w, none⟩) = .ret (false, []) := by
  obtain ⟨h0, w0, hpx⟩ := hg
  rw [hps] at hpx
  obtain ⟨hlen, hv⟩ := hpx
  have hpos : 0 ≤ g.height * g.width := le_of_lt (Int.mul_pos h0 w0)
  have hle := wrap_int_toNat_le hpos
  have hbuf : (wrap_int (g.height * g.width)).toNat ≤ ps.length := by omega
  obtain ⟨hist, h1, h2, _⟩ := apply_HIST_spec g ps hps hv hbuf
  refine ⟨⟨hist, h1, h2, ?_⟩, rfl, fun _ _ => rfl⟩
  rw [← print_hist_report, line_count_print_hist]

/-- C17, witness: the report of the 2 by 1 grid with the pixels (0,0,0) and
(255,1,2). -/
theorem C17_histogram_report_witness :
    (∃ hist, histogram 2 1 [⟨0, 0, 0⟩, ⟨255, 1, 2⟩] = .ret hist ∧
        apply_HIST (some sample_grid) = .ret (true, report_text hist) ∧
        line_count (report_text hist) = 256) ∧
      apply_HIST none = .ret (false, []) ∧
      ∀ h w : Int, apply_HIST (some ⟨h, w, none⟩) = .ret (false, []) :=
  C17_histogram_report sample_grid [⟨0, 0, 0⟩, ⟨255, 1, 2⟩] rfl (by decide)

/-! ## C20: the indices of the histogram -/

/-- C20: for every source grid (whatever its channel values), every strength
`s ≥ 0` and every sequence of random draws, when `apply_NOISE` can allocate
its copy, every channel of the grid it returns, which are the indices that
`apply_HIST` uses into its array of 256 counters, lies in 0..255, and
`apply_HIST` runs on that grid without reaching an access outside the array;
the same holds for every grid returned by `load_image`. -/
theorem C20_histogram_indices (heap : Nat → Bool) (rand : Nat → Nat) (k0 : Nat) (g : Image)
    (ps : List Pixel) (strength : Int) (hps : g.pixels = some ps)
    (hbuf : (wrap_int (g.height * g.width)).toNat ≤ ps.length)
    (hs : 0 ≤ strength)
    (hm1 : malloc heap SIZEOF_IMAGE = true)
    (hm2 : malloc heap (pixel_bytes g.height g.width) = true) :
    (∃ (r : Image) (qs : List Pixel) (k1 : Nat) (out : List Char),
        apply_NOISE heap rand k0 (some g) strength = .ret (some r, k1) ∧
        r.pixels = some qs ∧ (∀ x ∈ channels qs, 0 ≤ x ∧ x ≤ 255) ∧
        apply_HIST (some r) = .ret (true, out)) ∧
      ∀ (heap2 : Nat → Bool) (file : Option (List Char)) (d : Image),
        load_image heap2 file = .ok d →
        ∃ (qs : List Pixel) (out : List Char), d.pixels = some qs ∧
          (∀ x ∈ channels qs, 0 ≤ x ∧ x ≤ 255) ∧ apply_HIST (some d) = .ret (true, out) := by
  constructor
  · have hrun := apply_NOISE_spec heap rand k0 g ps strength hps hbuf hs hm1 hm2
    have hv := noise_from_valid rand strength
      (ps.take (wrap_int (g.height * g.width)).toNat) k0
    have hlen : (noise_from rand strength k0
        (ps.take (wrap_int (g.height * g.width)).toNat)).length =
        (wrap_int (g.height * g.width)).toNat := by
      rw [noise_from_length, List.length_take]
      omega
    obtain ⟨hist, _, h2, _⟩ := apply_HIST_spec
      ⟨g.height, g.width, some (noise_from rand strength k0
        (ps.take (wrap_int (g.height * g.width)).toNat))⟩ _ rfl hv (by simp only; omega)
    exact ⟨_, _, _, _, hrun, rfl, channels_valid _ hv, h2⟩
  · intro heap2 file d hd
    obtain ⟨_, _, qs, hqs, hlen, hv⟩ := load_image_invariant heap2 file d hd
    obtain ⟨hist, _, h2, _⟩ := apply_HIST_spec d qs hqs hv (by omega)
    exact ⟨qs, _, hqs, channels_valid _ hv, h2⟩

/-- C20, witness: strength 5 on the 1 by 2 grid with the pixels (0,0,300) and
(-7,1,2), for the draws 3, 10, 17, ... -/
theorem C20_histogram_indices_witness :
    ∃ (r : Image) (qs : List Pixel) (k1 : Nat) (out : List Char),
      apply_NOISE ample_heap (fun k => 7 * k + 3) 0
          (some ⟨1, 2, some [⟨0, 0, 300⟩, ⟨-7, 1, 2⟩]⟩) 5 = .ret (some r, k1) ∧
        r.pixels = some qs ∧ (∀ x ∈ channels qs, 0 ≤ x ∧ x ≤ 255) ∧
        apply_HIST (some r) = .ret (true, out) :=
  (C20_histogram_indices ample_heap (fun k => 7 * k + 3) 0
    ⟨1, 2, some [⟨0, 0, 300⟩, ⟨-7, 1, 2⟩]⟩ [⟨0, 0, 300⟩, ⟨-7, 1, 2⟩] 5 rfl (by decide)
    (by decide) (by decide) (by decide)).1

/-! ## C19: the output of the pipeline -/

/-- C13 (amended with the bound `height * width ≤ INT_MAX`): for a grid of
`height * width` pixels that lives on the heap at `src`, with
`height * width ≤ INT_MAX`, and a strength `s ≥ 0`, when the two allocations
succeed `apply_NOISE` returns a pointer `r`; every block that existed before
the call is as before, so the source still has its height, its width and its
pixels; the struct and the buffer of the result are two blocks that did not
exist before (`r ≠ src`), and the result has the height, the width and the
number of pixels of the source.  The function on values returns the same
grid. -/
theorem C13_source_unchanged (heap : Nat → Bool) (rand : Nat → Nat) (k0 : Nat)
    (mem : List Slot) (src : Nat) (h w : Int) (ps : List Pixel) (strength : Int)
    (hg : Store.fetch mem src = some ⟨h, w, some ps⟩)
    (hshape : (ps.length : Int) = h * w) (hfit : h * w ≤ INT_MAX)
    (hs : 0 ≤ strength)
    (hm1 : malloc heap SIZEOF_IMAGE = true) (hm2 : malloc heap (pixel_bytes h w) = true) :
    ∃ (r b1 : Nat) (mem1 : List Slot) (k1 : Nat) (qs : List Pixel),
      Store.apply_NOISE heap rand k0 mem (some src) strength = .ret (some r, mem1, k1) ∧
      (∀ a, a < mem.length → mem1[a]? = mem[a]?) ∧
      Store.fetch mem1 src = some ⟨h, w, some ps⟩ ∧
      r ≠ src ∧ mem.length ≤ r ∧ mem.length ≤ b1 ∧
      mem1[r]? = some ⟨.image h w (some b1), 0⟩ ∧ mem1[b1]? = some ⟨.buffer qs, 0⟩ ∧
      Store.fetch mem1 r = some ⟨h, w, some qs⟩ ∧ qs.length = ps.length ∧
      apply_NOISE heap rand k0 (some ⟨h, w, some ps⟩) strength =
        .ret (some ⟨h, w, some qs⟩, k1) := by
  obtain ⟨b, hsrc, hb⟩ := fetch_some mem src h w ps hg
  have hcount := wrap_int_count h w ps.length hshape hfit
  have hrun := store_apply_NOISE_spec heap rand k0 mem src b h w ps strength hsrc hb
    (by omega) hs hm1 hm2
  have hval := apply_NOISE_spec heap rand k0 ⟨h, w, some ps⟩ ps strength rfl
    (by simp only; omega) hs hm1 hm2
  simp only [hcount, List.take_length] at hrun hval
  have hlt : src < mem.length := by
    by_contra hge
    rw [List.getElem?_eq_none (by omega)] at hsrc
    cases hsrc
  have hblt : b < mem.length := by
    by_contra hge
    rw [List.getElem?_eq_none (by omega)] at hb
    cases hb
  have hr : (mem ++ [⟨.image h w (some (mem.length + 1)), 0⟩,
      ⟨.buffer (noise_from rand strength k0 ps), 0⟩] : List Slot)[mem.length]? =
      some ⟨.image h w (some (mem.length + 1)), 0⟩ := getElem?_append_length mem _ _
  have hb1 : (mem ++ [⟨.image h w (some (mem.length + 1)), 0⟩,
      ⟨.buffer (noise_from rand strength k0 ps), 0⟩] : List Slot)[mem.length + 1]? =
      some ⟨.buffer (noise_from rand strength k0 ps), 0⟩ := by
    rw [List.getElem?_append_right (by omega)]
    simp
  refine ⟨mem.length, mem.length + 1, _, _, noise_from rand strength k0 ps, hrun,
    fun a ha => getElem?_append_old mem _ a ha, ?_, by omega, le_refl _, by omega, hr, hb1,
    fetch_of_blocks _ _ _ h w _ hr hb1, noise_from_length rand strength ps k0, hval⟩
  apply fetch_of_blocks _ src b
  · rw [getElem?_append_old mem _ src hlt, hsrc]
  · rw [getElem?_append_old mem _ b hblt, hb]

/-- C13, witness: strength 5 on the grid of 2 by 1 pixels (0,0,0) and
(255,1,2) at the index 0 of the heap, for the draws 3, 10, 17, ... -/
theorem C13_source_unchanged_witness :
    ∃ (r b1 : Nat) (mem1 : List Slot) (k1 : Nat) (qs : List Pixel),
      Store.apply_NOISE ample_heap (fun k => 7 * k + 3) 0 sample_store (some 0) 5 =
        .ret (some r, mem1, k1) ∧
      (∀ a, a < sample_store.length → mem1[a]? = sample_store[a]?) ∧
      Store.fetch mem1 0 = some ⟨2, 1, some [⟨0, 0, 0⟩, ⟨255, 1, 2⟩]⟩ ∧
      r ≠ 0 ∧ sample_store.length ≤ r ∧ sample_store.length ≤ b1 ∧
      mem1[r]? = some ⟨.image 2 1 (some b1), 0⟩ ∧ mem1[b1]? = some ⟨.buffer qs, 0⟩ ∧
      Store.fetch mem1 r = some ⟨2, 1, some qs⟩ ∧
      qs.length = [(⟨0, 0, 0⟩ : Pixel), ⟨255, 1, 2⟩].length ∧
      apply_NOISE ample_heap (fun k => 7 * k + 3) 0
          (some ⟨2, 1, some [⟨0, 0, 0⟩, ⟨255, 1, 2⟩]⟩) 5 = .ret (some ⟨2, 1, some qs⟩, k1) :=
  C13_source_unchanged ample_heap (fun k => 7 * k + 3) 0 sample_store 0 2 1
    [⟨0, 0, 0⟩, ⟨255, 1, 2⟩] 5 rfl (by decide) (by decide) (by decide) (by decide) (by decide)

/-- C13, counterexample: the grid of 65536 by 65536 black pixels lives at the
index 0 of the heap and has `2^32` pixels; with the strength 0 and every
allocation granted, `apply_NOISE` returns a grid of the same height and width
whose buffer holds no pixel. -/
theorem C13_source_unchanged_counterexample :
    Store.fetch huge_store 0 = some huge_grid ∧
      (∀ ps, huge_grid.pixels = some ps → ps.length = 4294967296) ∧
      Store.apply_NOISE ample_heap (fun _ => 0) 0 huge_store (some 0) 0 =
        .ret (some 2, huge_store ++ [⟨.image 65536 65536 (some 3), 0⟩, ⟨.buffer [], 0⟩], 0) ∧
      Store.fetch (huge_store ++ [⟨.image 65536 65536 (some 3), 0⟩, ⟨.buffer [], 0⟩]) 2 =
        some ⟨65536, 65536, some []⟩ := by
  refine ⟨rfl, ?_, ?_, rfl⟩
  · intro ps hps
    have h2 : List.replicate huge_count (⟨0, 0, 0⟩ : Pixel) = ps := by
      simpa [huge_grid] using hps
    rw [← h2, List.length_replicate]
    decide
  · have h := store_apply_NOISE_spec ample_heap (fun _ => 0) 0 huge_store 0 1 65536 65536
      (List.replicate huge_count ⟨0, 0, 0⟩) 0 rfl rfl
      (by rw [wrap_int_huge]; exact Nat.zero_le _) (le_refl _) (by decide) (by decide)
    rw [h, wrap_int_huge, List.take_zero]
    rfl

/-! ## C14: negative strength -/

/-- C14: for every strength `s < 0`, every heap and every pointer `src`
(null or not), `apply_NOISE` returns the null pointer, leaves every block of
the heap as it was and makes no call of `rand`; the function on values
returns no grid and makes no call of `rand`, for every grid. -/
theorem C14_negative_strength (heap : Nat → Bool) (rand : Nat → Nat) (k0 : Nat)
    (mem : List Slot) (src : Option Nat) (g : Option Image) (strength : Int)
    (hs : strength < 0) :
    Store.apply_NOISE heap rand k0 mem src strength = .ret (none, mem, k0) ∧
      apply_NOISE heap rand k0 g strength = .ret (none, k0) := by
  constructor
  · cases src with
    | none => rfl
    | some a => simp only [Store.apply_NOISE, hs, if_true]
  · cases g with
    | none => simp [apply_NOISE]
    | some g => simp [apply_NOISE, hs]

/-- C14, witness: the strength -1 on the grid of 2 by 1 pixels (0,0,0) and
(255,1,2) at the index 0 of the heap. -/
theorem C14_negative_strength_witness :
    Store.apply_NOISE ample_heap (fun k => 7 * k + 3) 4 sample_store (some 0) (-1) =
        .ret (none, sample_store, 4) ∧
      apply_NOISE ample_heap (fun k => 7 * k + 3) 4 (some sample_grid) (-1) = .ret (none, 4) :=
  C14_negative_strength ample_heap (fun k => 7 * k + 3) 4 sample_store (some 0)
    (some sample_grid) (-1) (by decide)

/-! ## C18: the blocks that `main` allocates -/

/-- C18: for every command line, every content of the files, every outcome
of the allocations and of the writes and every draws, `main` returns, and
when it returns each block that has been allocated (the struct and the buffer
of the decoded grid and of the perturbed grid) has been released exactly
once: none twice, none left; a run that returns 0 has allocated the four
blocks of the two grids. -/
theorem C18_resource_safety (heap heap_n : Nat → Bool) (rand : Nat → Nat)
    (files : String → Option (List Char)) (sink : Sink) (argv : List String) :
    ∃ e, main heap heap_n rand files sink argv = .ret e ∧
      (∀ s ∈ e.heap, s.released = 1) ∧ (e.status = 0 → e.heap.length = 4) := by
  unfold main
  split
  · exact pipeline_released heap heap_n rand files sink _ _ 5
  · exact pipeline_released heap heap_n rand files sink _ _ _
  · exact ⟨⟨1, [], [], none⟩, rfl, by simp, fun h0 => absurd h0 (show ¬ (1 : Int) = 0 by decide)⟩

end Process
